import Mathlib

/-!
Verification of the Markdown Link Indexer core (link extraction,
broken-link detection, candidate search, path recalculation and rewrite).

The TypeScript source is shallowly embedded: strings stay strings,
Node `path` functions are modelled on POSIX semantics (the extension
passes absolute document directories; `path.resolve` against a relative
base is modelled with a root working directory), `fs.statSync` and
`vscode.workspace.findFiles` become explicit oracle parameters, and
JavaScript exceptions become `Option`/`Except` failure values.
-/

namespace MdLinkIndexer

/-! ## POSIX path primitives (Node `path` module, posix flavour) -/

/-- Split a character list at every slash, keeping (possibly empty) chunks. -/
def splitSlash : List Char → List (List Char)
  | [] => [[]]
  | c :: cs =>
    if c = '/' then [] :: splitSlash cs
    else
      match splitSlash cs with
      | [] => [[c]]
      | chunk :: rest => (c :: chunk) :: rest

/-- The nonempty path segments of a string. -/
def segsOf (s : String) : List String :=
  ((splitSlash s.data).filter (fun l => l ≠ [])).map (fun l => String.mk l)

/-- Node `path.isAbsolute` (posix): a leading slash. -/
def isAbsolutePosix (s : String) : Bool :=
  match s.data with
  | [] => false
  | c :: _ => c = '/'

/-- One step of absolute-path segment resolution: drop empty and dot
segments, pop on a dot-dot segment (a dot-dot at the root vanishes). -/
def normStep (st : List String) (seg : String) : List String :=
  if seg = "" ∨ seg = "." then st
  else if seg = ".." then st.dropLast
  else st ++ [seg]

/-- Resolve the segments of an absolute path. -/
def normAbs (segs : List String) : List String :=
  segs.foldl normStep []

/-- Join segments with slashes (no leading or trailing slash). -/
def joinSegsAux : List String → List Char
  | [] => []
  | [x] => x.data
  | x :: y :: xs => x.data ++ '/' :: joinSegsAux (y :: xs)

def joinSegs (l : List String) : String :=
  String.mk (joinSegsAux l)

/-- Node `path.resolve(base, p)` (posix), with the working directory
modelled as the root (all callers in the extension pass an absolute
base, for which the working directory is irrelevant). -/
def resolvePosix (base p : String) : String :=
  let segs := if isAbsolutePosix p then segsOf p else segsOf base ++ segsOf p
  String.mk ('/' :: joinSegsAux (normAbs segs))

/-- Length of the longest common prefix of two segment lists. -/
def commonPrefixLen : List String → List String → Nat
  | x :: xs, y :: ys => if x = y then commonPrefixLen xs ys + 1 else 0
  | _, _ => 0

/-- Node `path.relative(from, to)` (posix): resolve both paths, strip the
common segment prefix, go up with dot-dot segments and down into the rest. -/
def relativePosix (fromPath toPath : String) : String :=
  let f := normAbs (segsOf fromPath)
  let t := normAbs (segsOf toPath)
  let c := commonPrefixLen f t
  joinSegs (List.replicate (f.length - c) ".." ++ t.drop c)

/-- Node `path.dirname` (posix): scan from the end skipping trailing
slashes, cut at the next slash (never the one at index zero). -/
def dirnamePosix (s : String) : String :=
  if s.data = [] then "."
  else
    let r := s.data.reverse
    let r1 := r.dropWhile (fun c => c = '/')
    let r2 := r1.dropWhile (fun c => c ≠ '/')
    if r2.length ≤ 1 then (if isAbsolutePosix s then "/" else ".")
    else if isAbsolutePosix s ∧ r2.length = 2 then "//"
    else String.mk (s.data.take (r2.length - 1))

/-- Node `path.basename` (posix): last segment, ignoring trailing slashes. -/
def basenamePosix (s : String) : String :=
  let r := s.data.reverse.dropWhile (fun c => c = '/')
  String.mk ((r.takeWhile (fun c => c ≠ '/')).reverse)

/-- Length (with the dot) of the extension of a basename, per Node
`path.parse`: no extension when there is no dot, when the only dot is the
leading character, or when the basename is exactly dot-dot. -/
def extLenOf (b : List Char) : Nat :=
  let k := (b.reverse.takeWhile (fun c => c ≠ '.')).length
  if k = b.length then 0
  else if b.length - k - 1 = 0 then 0
  else if b = ['.', '.'] then 0
  else k + 1

structure PathParts where
  dir : String
  base : String
  ext : String
  name : String
deriving Repr, DecidableEq

/-- The characters of a path after the root slash, reversed, with
trailing slashes removed (the region Node `path.parse` scans). -/
def trimmedRev (s : String) : List Char :=
  (s.data.drop (if isAbsolutePosix s then 1 else 0)).reverse.dropWhile (fun c => c = '/')

/-- The characters of the basename Node `path.parse` extracts. -/
def baseCharsOf (s : String) : List Char :=
  ((trimmedRev s).takeWhile (fun c => c ≠ '/')).reverse

/-- Node `path.parse` (posix), restricted to the fields the source uses. -/
def parsePosix (s : String) : PathParts :=
  let isAbs := isAbsolutePosix s
  let start : Nat := if isAbs then 1 else 0
  let r1 := trimmedRev s
  if r1 = [] then
    { dir := if isAbs then "/" else "", base := "", ext := "", name := "" }
  else
    let baseChars := baseCharsOf s
    let restR := r1.dropWhile (fun c => c ≠ '/')
    let dir :=
      if restR = [] then (if isAbs then "/" else "")
      else String.mk (s.data.take (start + restR.length - 1))
    let el := extLenOf baseChars
    { dir := dir
      base := String.mk baseChars
      ext := String.mk (baseChars.drop (baseChars.length - el))
      name := String.mk (baseChars.take (baseChars.length - el)) }

/-- One step of relative-path normalization (Node `path.normalize`):
leading dot-dot segments are kept. -/
def normStepRel (st : List String) (seg : String) : List String :=
  if seg = "" ∨ seg = "." then st
  else if seg = ".." then
    match st.getLast? with
    | some last => if last = ".." then st ++ [".."] else st.dropLast
    | none => [".."]
  else st ++ [seg]

/-- Node `path.join(a, b)` (posix) for slash-free-suffix arguments:
drop empty parts, join with a slash, normalize. -/
def joinPosix (a b : String) : String :=
  let parts := [a, b].filter (fun s => s ≠ "")
  if parts = [] then "."
  else
    let joined := joinSegs parts
    if isAbsolutePosix joined then
      let core := joinSegsAux (normAbs (segsOf joined))
      String.mk ('/' :: core)
    else
      let core := joinSegs ((segsOf joined).foldl normStepRel [])
      if core = "" then "." else core

/-- The global backslash-to-slash substitution `replace(/\\/g, '/')`. -/
def replaceBackslashes (s : String) : String :=
  String.mk (s.data.map (fun c => if c = '\\' then '/' else c))

/-- `calculateRelativePath` from the source: relative path from the
directory of `fromFile` to `toFile`, separators normalized to slashes. -/
def calculateRelativePath (fromFile toFile : String) : String :=
  replaceBackslashes (relativePosix (dirnamePosix fromFile) toFile)

/-! ## `decodeURIComponent`

JavaScript's decoder: percent escapes are decoded as strict UTF-8 byte
sequences; a dangling or non-hex escape, a stray continuation byte, an
overlong encoding, a surrogate code point or a value above 0x10FFFF all
raise `URIError`, modelled as `none`. -/

def hexVal (c : Char) : Option Nat :=
  if '0' ≤ c ∧ c ≤ '9' then some (c.toNat - 48)
  else if 'a' ≤ c ∧ c ≤ 'f' then some (c.toNat - 87)
  else if 'A' ≤ c ∧ c ≤ 'F' then some (c.toNat - 55)
  else none

/-- Read one `%hh` escape, returning its byte and the remaining input. -/
def pctByte : List Char → Option (Nat × List Char)
  | '%' :: h1 :: h2 :: rest =>
    match hexVal h1, hexVal h2 with
    | some a, some b => some (16 * a + b, rest)
    | _, _ => none
  | _ => none

/-- Read `k` UTF-8 continuation bytes, each written as a `%hh` escape. -/
def readConts : Nat → List Char → Option (List Nat × List Char)
  | 0, cs => some ([], cs)
  | k + 1, cs =>
    match pctByte cs with
    | some (b, rest) =>
      if 128 ≤ b ∧ b < 192 then
        (readConts k rest).map (fun p => (b :: p.1, p.2))
      else none
    | none => none

/-- Decoder loop; the fuel starts at the input length and each iteration
consumes at least one character, so the fuel never runs out. -/
def decodeAux : Nat → List Char → Option (List Char)
  | _, [] => some []
  | 0, _ :: _ => none
  | fuel + 1, c :: cs =>
    if c ≠ '%' then (decodeAux fuel cs).map (fun l => c :: l)
    else
      match pctByte (c :: cs) with
      | none => none
      | some (b, rest) =>
        if b < 128 then (decodeAux fuel rest).map (fun l => Char.ofNat b :: l)
        else if b < 192 then none
        else if b < 224 then
          match readConts 1 rest with
          | some ([b1], r) =>
            let v := (b - 192) * 64 + (b1 - 128)
            if 128 ≤ v then (decodeAux fuel r).map (fun l => Char.ofNat v :: l)
            else none
          | _ => none
        else if b < 240 then
          match readConts 2 rest with
          | some ([b1, b2], r) =>
            let v := (b - 224) * 4096 + (b1 - 128) * 64 + (b2 - 128)
            if 2048 ≤ v ∧ ¬(55296 ≤ v ∧ v ≤ 57343) then
              (decodeAux fuel r).map (fun l => Char.ofNat v :: l)
            else none
          | _ => none
        else if b < 248 then
          match readConts 3 rest with
          | some ([b1, b2, b3], r) =>
            let v := (b - 240) * 262144 + (b1 - 128) * 4096 + (b2 - 128) * 64 + (b3 - 128)
            if 65536 ≤ v ∧ v ≤ 1114111 then
              (decodeAux fuel r).map (fun l => Char.ofNat v :: l)
            else none
          | _ => none
        else none

def decodeURIComponent (s : String) : Option String :=
  (decodeAux s.data.length s.data).map String.mk

/-! ## Markdown link extraction

`markdown-it`'s `md.parse` is an external library; the extractor is
embedded over its output, a forest of tokens each carrying a type tag,
an attribute list and child tokens.  `walkTokens` visits the forest in
preorder, exactly as the source's recursive callback walk does. -/

inductive Token where
  | mk (ty : String) (attrs : List (String × String)) (children : List Token)
deriving Repr

def Token.ty : Token → String
  | .mk t _ _ => t

def Token.children : Token → List Token
  | .mk _ _ ch => ch

/-- `token.attrGet(name)`: the attribute's value, or null when absent. -/
def Token.attrGet : Token → String → Option String
  | .mk _ attrs _, name => (attrs.find? (fun a => a.1 == name)).map (fun a => a.2)

mutual

/-- Preorder flattening of the token forest (the visit order of `walkTokens`). -/
def walkTokensFlatten : List Token → List Token
  | [] => []
  | t :: ts => walkTokenOne t ++ walkTokensFlatten ts

/-- One token followed by its flattened children. -/
def walkTokenOne : Token → List Token
  | .mk ty attrs ch => .mk ty attrs ch :: walkTokensFlatten ch

end

/-- JavaScript truthiness on an optional string: null and the empty
string are falsy. -/
def nonEmptyStr : Option String → Option String
  | some s => if s = "" then none else some s
  | none => none

/-- `token.attrGet('href') || token.attrGet('src')`, followed by the
`if (href)` truthiness guard. -/
def tokenHref (t : Token) : Option String :=
  match nonEmptyStr (t.attrGet "href") with
  | some h => some h
  | none => nonEmptyStr (t.attrGet "src")

/-- Line terminators that a JavaScript regex dot does not match. -/
def isLineTerminator (c : Char) : Bool :=
  c = '\n' ∨ c = '\r' ∨ c = '\u2028' ∨ c = '\u2029'

/-- `href.replace(/^<(.+)>$/, '$1')`: strip one pair of enclosing angle
brackets when the whole string matches the anchored pattern. -/
def stripAngleBrackets (s : String) : String :=
  match s.data with
  | '<' :: rest =>
    if 2 ≤ rest.length ∧ rest.getLast? = some '>' ∧
        rest.dropLast.all (fun c => ¬ isLineTerminator c) then
      String.mk rest.dropLast
    else s
  | _ => s

def startsWithStr (s pre : String) : Bool :=
  pre.data.isPrefixOf s.data

/-- `isUrlLink` from the source. -/
def isUrlLink (href : String) : Bool :=
  startsWithStr href "http://" ∨ startsWithStr href "https://"

/-- `normalizeLink` from the source: absolute or protocol-prefixed targets
are returned as written; anything else is percent-decoded (which may
throw, modelled as `none`) and resolved against the base directory. -/
def normalizeLink (href baseDir : String) : Option String :=
  if isAbsolutePosix href ∨ startsWithStr href "http://" ∨ startsWithStr href "https://" then
    some href
  else
    (decodeURIComponent href).map (fun d => resolvePosix baseDir d)

inductive LinkClass where
  | url
  | anchor
  | mailto
  | protocol
  | file
deriving Repr, DecidableEq

/-- The classification implicit in the extractor's filter chain. -/
def classifyTarget (href : String) : LinkClass :=
  if isUrlLink href then .url
  else if startsWithStr href "#" then .anchor
  else if startsWithStr href "mailto:" then .mailto
  else if startsWithStr href "javascript:" then .protocol
  else .file

/-- The loop body of `extractMarkdownLinks`: skip non-link tokens and
URL, anchor, mailto and javascript targets, push the normalized form of
everything else. -/
def extractStep (baseDir : String) (acc : List String) (t : Token) : Option (List String) :=
  if t.ty = "link_open" ∨ t.ty = "image" then
    match tokenHref t with
    | some href0 =>
      let href := stripAngleBrackets href0
      if isUrlLink href then some acc
      else if startsWithStr href "#" ∨ startsWithStr href "mailto:" ∨
          startsWithStr href "javascript:" then some acc
      else (normalizeLink href baseDir).map (fun n => acc ++ [n])
    | none => some acc
  else some acc

/-- `extractMarkdownLinks` from the source, over the parsed token forest.
A `none` result models the URIError escaping from `normalizeLink`. -/
def extractMarkdownLinks (tokens : List Token) (baseDir : String) : Option (List String) :=
  (walkTokensFlatten tokens).foldlM (extractStep baseDir) []

/-- The target a single token contributes, after angle-bracket stripping. -/
def tokenTarget (t : Token) : Option String :=
  if t.ty = "link_open" ∨ t.ty = "image" then
    (tokenHref t).map stripAngleBrackets
  else none

/-- All raw targets the extractor looks at, after angle-bracket stripping,
in encounter order. -/
def rawTargets (tokens : List Token) : List String :=
  (walkTokensFlatten tokens).filterMap tokenTarget

/-- The raw targets classified `file`. -/
def fileTargets (tokens : List Token) : List String :=
  (rawTargets tokens).filter (fun s => classifyTarget s = .file)

/-! ## Broken-link detection

`fs.statSync` is modelled as an oracle from paths to stat outcomes. -/

inductive StatResult where
  | entry (isFile : Bool) (isDirectory : Bool)
  | errENOENT
  | errEACCES
  | errOther
deriving Repr, DecidableEq

/-- `isLinkBroken` from the source: a stat that reports a regular file or
a directory is not broken; every other outcome (unknown entry kind,
not-found, access-denied, any other error) is broken. -/
def isLinkBroken (fs : String → StatResult) (link : String) : Bool :=
  match fs link with
  | .entry isFile isDirectory =>
    if isFile then false
    else if isDirectory then false
    else true
  | .errENOENT => true
  | .errEACCES => true
  | .errOther => true

structure BrokenLinkInfo where
  filePath : String
  brokenLink : String
  originalLink : String
deriving Repr, DecidableEq

/-- `findBrokenLinks` from the source: scan every document of the index in
order and record each link that the probe reports broken. -/
def findBrokenLinks (fs : String → StatResult) (index : List (String × List String)) :
    List BrokenLinkInfo :=
  index.foldl
    (fun acc e =>
      acc ++ (e.2.filter (fun l => isLinkBroken fs l)).map
        (fun l => { filePath := e.1, brokenLink := l, originalLink := l }))
    []

/-! ## Candidate search

`vscode.workspace.findFiles(pattern, undefined, max)` is modelled as an
oracle from the glob pattern and result bound to either a result list or
a thrown error (`none`). -/

structure Candidates where
  exactFolderMatches : List String
  looseMatches : List String
deriving Repr, DecidableEq

/-- The cross-format alternative extensions from the source. -/
def alternativeExtensions (ext : String) : List String :=
  if ext = ".md" then [".ipynb"]
  else if ext = ".ipynb" then [".md", ".markdown"]
  else []

/-- One iteration of the cross-format loop: the `try` block first runs the
exact-structure search (keeping its pushes even if the later loose search
throws), then the loose search filtered against both accumulators. -/
def crossFormatStep (search : String → Nat → Option (List String))
    (pp : PathParts) (acc : List String × List String) (altExt : String) :
    List String × List String :=
  let ex := acc.1
  let lo := acc.2
  match (if pp.dir ≠ "" then
      search ("**/" ++ basenamePosix pp.dir ++ "/" ++ pp.name ++ altExt) 10
    else some []) with
  | none => (ex, lo)
  | some l1 =>
    let ex2 := ex ++ l1
    match search ("**/" ++ pp.name ++ altExt) 10 with
    | none => (ex2, lo)
    | some l2 =>
      (ex2, lo ++ l2.filter (fun c => ¬ ex2.contains c ∧ ¬ lo.contains c))

/-- Search 1 of `findSmartReplacementCandidates`: the exact folder
structure match on the trailing two components, skipped when the broken
link has no folder part, with a throwing backend treated as no matches. -/
def exactTier1 (search : String → Nat → Option (List String)) (pp : PathParts) :
    List String :=
  if pp.dir ≠ "" then
    match search ("**/" ++ basenamePosix pp.dir ++ "/" ++ pp.base) 20 with
    | some l => l
    | none => []
  else []

/-- Search 2: the loose filename match, keeping only candidates not
already found by the exact-structure search. -/
def looseTier1 (search : String → Nat → Option (List String)) (pp : PathParts)
    (exact1 : List String) : List String :=
  match search ("**/" ++ pp.base) 20 with
  | some l => l.filter (fun c => ¬ exact1.contains c)
  | none => []

/-- Both tiers after the cross-format loop has merged in its results. -/
def mergedTiers (search : String → Nat → Option (List String)) (pp : PathParts) :
    List String × List String :=
  let exact1 := exactTier1 search pp
  let loose1 := looseTier1 search pp exact1
  if pp.ext ≠ "" then
    (alternativeExtensions pp.ext).foldl (crossFormatStep search pp) (exact1, loose1)
  else (exact1, loose1)

/-- `findSmartReplacementCandidates` from the source: exact-structure
search on the trailing two components, loose search on the bare filename
(excluding exact hits), cross-format searches merged into both tiers, and
a final filter removing the broken link itself. -/
def findSmartReplacementCandidates (search : String → Nat → Option (List String))
    (brokenLink : String) : Candidates :=
  let merged := mergedTiers search (parsePosix brokenLink)
  { exactFolderMatches := merged.1.filter (fun c => c ≠ brokenLink)
    looseMatches := merged.2.filter (fun c => c ≠ brokenLink) }

/-! ## The repair flow's selection policy (`fixBrokenLinks`) -/

inductive RepairAction where
  | autoFix (replacement : String)
  | interactive (candidates : List String)
  | report
deriving Repr, DecidableEq

/-- The branch structure of the per-broken-path loop in `fixBrokenLinks`:
one exact match auto-fixes; otherwise one loose match (with no exact
matches) auto-fixes; otherwise several candidates go to interactive
selection; otherwise the path is reported as having no candidates. -/
def repairDecision (exact loose : List String) : RepairAction :=
  if exact.length = 1 then .autoFix (exact.getD 0 "")
  else if exact.length = 0 ∧ loose.length = 1 then .autoFix (loose.getD 0 "")
  else if 1 < exact.length ∨ (exact.length = 0 ∧ 1 < loose.length) then
    .interactive (exact ++ loose)
  else .report

/-! ## Markdown link rewriting (`updateMarkdownLinks`)

The source rewrites with two global regex passes,
`\[([^\]]*)\]\((<)?([^>)]+)(>)?\)` and its image variant with a leading
bang.  The pattern's character classes make the backtracking
deterministic, so the matcher below is a direct functional rendering.
JavaScript's `String.replace(string, string)` (used on the matched
substring) replaces the first occurrence and expands dollar patterns. -/

/-- Parse `([^>)]+)(>)?\)`, returning the link run, the optional closing
angle bracket and the rest of the input. -/
def matchAngleBody (cs : List Char) : Option (List Char × List Char × List Char) :=
  let run := cs.takeWhile (fun c => c ≠ '>' ∧ c ≠ ')')
  if run = [] then none
  else
    match cs.drop run.length with
    | ')' :: rest => some (run, [], rest)
    | '>' :: ')' :: rest => some (run, ['>'], rest)
    | _ => none

/-- Parse `(<)?([^>)]+)(>)?\)`: a greedy optional opening angle bracket,
retried without it when the rest fails (the one backtracking point the
pattern has). -/
def matchParen (cs : List Char) :
    Option (List Char × List Char × List Char × List Char) :=
  match cs with
  | '<' :: cs1 =>
    match matchAngleBody cs1 with
    | some (run, g4, rest) => some (['<'], run, g4, rest)
    | none => (matchAngleBody cs).map (fun p => ([], p.1, p.2.1, p.2.2))
  | _ => (matchAngleBody cs).map (fun p => ([], p.1, p.2.1, p.2.2))

structure LinkMatch where
  total : List Char
  g2 : List Char
  link : List Char
  g4 : List Char
  rest : List Char
deriving Repr

/-- Try to match one link pattern at the start of the input. -/
def matchLinkAt (isImage : Bool) (cs : List Char) : Option LinkMatch :=
  let core : List Char → Option LinkMatch := fun cs1 =>
    match cs1 with
    | '[' :: cs2 =>
      let alt := cs2.takeWhile (fun c => c ≠ ']')
      match cs2.drop alt.length with
      | ']' :: '(' :: cs3 =>
        match matchParen cs3 with
        | some (g2, run, g4, rest) =>
          some { total := '[' :: alt ++ ']' :: '(' :: (g2 ++ run ++ g4 ++ [')'])
                 g2 := g2, link := run, g4 := g4, rest := rest }
        | none => none
      | _ => none
    | _ => none
  if isImage then
    match cs with
    | '!' :: cs1 => (core cs1).map (fun m => { m with total := '!' :: m.total })
    | _ => none
  else core cs

/-- Dollar-pattern expansion of `String.replace(string, string)`:
`$$`, `$&` (the match), a dollar-backquote (the part before) and a
dollar-quote (the part after); everything else is literal. -/
def expandDollar : List Char → List Char → List Char → List Char → List Char
  | [], _, _, _ => []
  | '$' :: '$' :: rest, m, b, a => '$' :: expandDollar rest m b a
  | '$' :: '&' :: rest, m, b, a => m ++ expandDollar rest m b a
  | '$' :: '\u0060' :: rest, m, b, a => b ++ expandDollar rest m b a
  | '$' :: '\u0027' :: rest, m, b, a => a ++ expandDollar rest m b a
  | c :: rest, m, b, a => c :: expandDollar rest m b a

/-- First occurrence of `pat` in `s`, split into before and after parts. -/
def findSubstring (s pat : List Char) : Option (List Char × List Char) :=
  if pat.isPrefixOf s then some ([], s.drop pat.length)
  else
    match s with
    | [] => none
    | c :: cs => (findSubstring cs pat).map (fun p => (c :: p.1, p.2))

/-- JavaScript `s.replace(pat, repl)` with string arguments. -/
def strReplaceFirst (s pat repl : String) : String :=
  match findSubstring s.data pat.data with
  | none => s
  | some (before, after) =>
    String.mk (before ++ expandDollar repl.data pat.data before after ++ after)

/-- `isRelativeLink` from the source. -/
def isRelativeLink (link : String) : Bool :=
  !(isAbsolutePosix link) && !(startsWithStr link "http://") &&
    !(startsWithStr link "https://") && !(startsWithStr link "#") &&
    !(startsWithStr link "mailto:") && !(startsWithStr link "javascript:")

/-- The replace callback of `updateInlineLinks`: recompute a relative
link against the moved directory, wrap a spacey result in angle brackets,
and splice it over the old link part inside the matched text.  `none`
models the URIError thrown by `normalizeLink` on an undecodable target. -/
def rewriteOneLink (oldDir newDir : String) (m : LinkMatch) : Option (List Char) :=
  let link := String.mk m.link
  if isRelativeLink link then
    match normalizeLink link oldDir with
    | none => none
    | some target =>
      let newLink0 := calculateRelativePath (joinPosix newDir "dummy.md") target
      let newLink :=
        if newLink0.data.contains ' ' then String.mk ('<' :: newLink0.data ++ ['>'])
        else newLink0
      let linkPart := String.mk (m.g2 ++ m.link ++ m.g4)
      some (strReplaceFirst (String.mk m.total) linkPart newLink).data
  else some m.total

/-- One global-replace pass.  The fuel starts above the input length and
every iteration consumes at least one character, so it never runs out. -/
def scanReplace (oldDir newDir : String) (isImage : Bool) :
    Nat → List Char → Option (List Char)
  | _, [] => some []
  | 0, _ :: _ => none
  | fuel + 1, c :: cs =>
    match matchLinkAt isImage (c :: cs) with
    | some m =>
      match rewriteOneLink oldDir newDir m with
      | none => none
      | some repl =>
        (scanReplace oldDir newDir isImage fuel m.rest).map (fun out => repl ++ out)
    | none => (scanReplace oldDir newDir isImage fuel cs).map (fun out => c :: out)

/-- `updateMarkdownLinks` from the source: identical directories are a
no-op before anything else; otherwise the plain-link pass runs first and
the image pass runs on its output.  `.error` models an escaping URIError. -/
def updateMarkdownLinks (text oldDir newDir : String) : Except Unit String :=
  if oldDir = newDir then .ok text
  else
    match scanReplace oldDir newDir false (text.data.length + 1) text.data with
    | none => .error ()
    | some out1 =>
      match scanReplace oldDir newDir true (out1.length + 1) out1 with
      | none => .error ()
      | some out2 => .ok (String.mk out2)

/-! ## JSON values (`JSON.parse` output)

`JSON.parse` is external; the notebook functions are embedded over its
result.  Object field lists carry the object's own-key order and numbers
are restricted to integers (nothing the claims touch depends on float
formatting). -/

inductive Json where
  | null
  | bool (b : Bool)
  | num (n : Int)
  | str (s : String)
  | arr (elems : List Json)
  | obj (fields : List (String × Json))
deriving Repr

/-- JavaScript property lookup on an object's field list. -/
def Json.lookup (fields : List (String × Json)) (key : String) : Option Json :=
  (fields.find? (fun f => f.1 == key)).map (fun f => f.2)

/-- JavaScript falsiness of a JSON value. -/
def jsFalsy : Json → Bool
  | .null => true
  | .bool b => !b
  | .num n => n == 0
  | .str s => s == ""
  | _ => false

mutual

/-- JavaScript `String(x)` as used by `Array.prototype.join`: null
becomes empty, arrays join their elements with commas. -/
def jsToString : Json → String
  | .null => ""
  | .bool b => if b then "true" else "false"
  | .num n => toString n
  | .str s => s
  | .arr xs => jsonJoin "," xs
  | .obj _ => "[object Object]"

def jsonJoin : String → List Json → String
  | _, [] => ""
  | _, [x] => jsToString x
  | sep, x :: y :: xs => jsToString x ++ sep ++ jsonJoin sep (y :: xs)

end

/-! ## `JSON.stringify(data, null, 1)` -/

def hexDigitChar (n : Nat) : Char :=
  if n < 10 then Char.ofNat (48 + n) else Char.ofNat (87 + n)

def hex4 (n : Nat) : List Char :=
  [hexDigitChar (n / 4096 % 16), hexDigitChar (n / 256 % 16),
    hexDigitChar (n / 16 % 16), hexDigitChar (n % 16)]

/-- The JSON quoting of one character (`QuoteJSONString`). -/
def escapeJsonChar (c : Char) : List Char :=
  if c = '"' then ['\\', '"']
  else if c = '\\' then ['\\', '\\']
  else if c = '\n' then ['\\', 'n']
  else if c = '\r' then ['\\', 'r']
  else if c = '\t' then ['\\', 't']
  else if c = '\x08' then ['\\', 'b']
  else if c = '\x0c' then ['\\', 'f']
  else if c.toNat < 32 then '\\' :: 'u' :: hex4 c.toNat
  else [c]

def quoteJson (s : String) : String :=
  String.mk ('"' :: (s.data.map escapeJsonChar).flatten ++ ['"'])

def indentStr (n : Nat) : String :=
  String.mk (List.replicate n ' ')

mutual

/-- `JSON.stringify` with a one-space gap, at a given nesting depth. -/
def stringify1 : Nat → Json → String
  | _, .null => "null"
  | _, .bool b => if b then "true" else "false"
  | _, .num n => toString n
  | _, .str s => quoteJson s
  | _, .arr [] => "[]"
  | ind, .arr (x :: xs) =>
    "[\n" ++ stringifyArrItems (ind + 1) (x :: xs) ++ "\n" ++ indentStr ind ++ "]"
  | _, .obj [] => "\x7b\x7d"
  | ind, .obj (f :: fs) =>
    "\x7b\n" ++ stringifyObjItems (ind + 1) (f :: fs) ++ "\n" ++ indentStr ind ++ "\x7d"

def stringifyArrItems : Nat → List Json → String
  | _, [] => ""
  | ind, [x] => indentStr ind ++ stringify1 ind x
  | ind, x :: y :: xs =>
    indentStr ind ++ stringify1 ind x ++ ",\n" ++ stringifyArrItems ind (y :: xs)

def stringifyObjItems : Nat → List (String × Json) → String
  | _, [] => ""
  | ind, [f] => indentStr ind ++ quoteJson f.1 ++ ": " ++ stringify1 ind f.2
  | ind, f :: g :: fs =>
    indentStr ind ++ quoteJson f.1 ++ ": " ++ stringify1 ind f.2 ++ ",\n" ++
      stringifyObjItems ind (g :: fs)

end

/-! ## Notebook link extraction (`extractLinksFromNotebook`)

The whole body sits in a `try` whose `catch` returns the empty list; a
`none`/`.error` anywhere below therefore collapses to `[]`. -/

/-- The `data.cells || []` value and the `for..of` iterability check:
a null document throws on property access, a falsy `cells` value is
replaced by the empty list, iterating a string yields single-character
string cells (none of which are markdown objects, so they contribute
nothing), and any other non-array value throws. -/
def notebookCellsValue (data : Json) : Except Unit (List Json) :=
  match data with
  | .null => .error ()
  | .obj fields =>
    match Json.lookup fields "cells" with
    | some v =>
      if jsFalsy v then .ok []
      else
        match v with
        | .arr cs => .ok cs
        | .str _ => .ok []
        | _ => .error ()
    | none => .ok []
  | _ => .ok []

/-- The cell loop: markdown cells have their source lines joined with no
separator and run through the extractor; missing or non-array sources
throw, as does property access on a null cell; other cells are skipped. -/
def notebookCellLinks (parse : String → List Token) (baseDir : String) :
    List Json → Except Unit (List String)
  | [] => .ok []
  | cell :: rest =>
    match cell with
    | .null => .error ()
    | .obj fields =>
      match Json.lookup fields "cell_type" with
      | some (.str t) =>
        if t = "markdown" then
          match Json.lookup fields "source" with
          | some (.arr elems) =>
            match extractMarkdownLinks (parse (jsonJoin "" elems)) baseDir with
            | none => .error ()
            | some links =>
              (notebookCellLinks parse baseDir rest).map (fun l => links ++ l)
          | some _ => .error ()
          | none => .error ()
        else notebookCellLinks parse baseDir rest
      | _ => notebookCellLinks parse baseDir rest
    | _ => notebookCellLinks parse baseDir rest

/-- `extractLinksFromNotebook` from the source; `parsed` is the outcome
of `JSON.parse` (`none` when it threw). -/
def extractLinksFromNotebook (parse : String → List Token) (parsed : Option Json)
    (baseDir : String) : List String :=
  match parsed with
  | none => []
  | some data =>
    match notebookCellsValue data with
    | .error _ => []
    | .ok cells =>
      match notebookCellLinks parse baseDir cells with
      | .error _ => []
      | .ok links => links

/-! ## Notebook link rewriting (`updateNotebookLinks`) -/

/-- `source.map(line => updateMarkdownLinks(line, oldDir, newDir))`:
a non-string line makes `replace` throw inside the callback. -/
def mapLines (oldDir newDir : String) : List Json → Except Unit (List Json)
  | [] => .ok []
  | .str line :: rest =>
    match updateMarkdownLinks line oldDir newDir with
    | .error e => .error e
    | .ok line2 => (mapLines oldDir newDir rest).map (fun l => .str line2 :: l)
  | _ :: _ => .error ()

/-- JavaScript property assignment on an existing key: the value changes
in place, the key order does not. -/
def setField (fields : List (String × Json)) (key : String) (v : Json) :
    List (String × Json) :=
  fields.map (fun f => if f.1 = key then (key, v) else f)

/-- One cell of the `updateNotebookLinks` loop. -/
def processCell (oldDir newDir : String) (cell : Json) : Except Unit Json :=
  match cell with
  | .null => .error ()
  | .obj fields =>
    match Json.lookup fields "cell_type" with
    | some (.str t) =>
      if t = "markdown" then
        match Json.lookup fields "source" with
        | some src =>
          if jsFalsy src then .ok cell
          else
            match src with
            | .arr lines =>
              match mapLines oldDir newDir lines with
              | .error e => .error e
              | .ok lines2 => .ok (.obj (setField fields "source" (.arr lines2)))
            | _ => .error ()
        | none => .ok cell
      else .ok cell
    | _ => .ok cell
  | _ => .ok cell

def updateNotebookCells (oldDir newDir : String) : List Json → Except Unit (List Json)
  | [] => .ok []
  | cell :: rest =>
    match processCell oldDir newDir cell with
    | .error e => .error e
    | .ok c2 => (updateNotebookCells oldDir newDir rest).map (fun l => c2 :: l)

/-- The `try` body of `updateNotebookLinks`: mutate markdown cell sources
line by line, then report the whole document for re-serialization. -/
def updateNotebookLinksCore (oldDir newDir : String) (data : Json) : Except Unit Json :=
  match data with
  | .null => .error ()
  | .obj fields =>
    match Json.lookup fields "cells" with
    | some v =>
      if jsFalsy v then .ok data
      else
        match v with
        | .arr cells =>
          match updateNotebookCells oldDir newDir cells with
          | .error e => .error e
          | .ok cells2 => .ok (.obj (setField fields "cells" (.arr cells2)))
        | .str _ => .ok data
        | _ => .error ()
    | none => .ok data
  | _ => .ok data

/-- `updateNotebookLinks` from the source: a no-op for identical
directories; otherwise the parsed document is rewritten and re-serialized
with `JSON.stringify(data, null, 1)`, and any parse or processing error
returns the input content unchanged. -/
def updateNotebookLinks (parsed : Option Json) (content oldDir newDir : String) : String :=
  if oldDir = newDir then content
  else
    match parsed with
    | none => content
    | some data =>
      match updateNotebookLinksCore oldDir newDir data with
      | .ok data2 => stringify1 0 data2
      | .error _ => content

/-! ## Specification-side descriptions used by the claims -/

/-- A notebook cell the extraction loop processes without throwing:
not null, and when markdown-typed it has an array source whose joined
text extracts successfully. -/
def cellOK (parse : String → List Token) (baseDir : String) (cell : Json) : Bool :=
  match cell with
  | .null => false
  | .obj fields =>
    match Json.lookup fields "cell_type" with
    | some (.str t) =>
      if t = "markdown" then
        match Json.lookup fields "source" with
        | some (.arr elems) =>
          (extractMarkdownLinks (parse (jsonJoin "" elems)) baseDir).isSome
        | _ => false
      else true
    | _ => true
  | _ => true

/-- The expected notebook shape of the claims: a top-level object whose
`cells` value is an array of processable cells. -/
def notebookWF (parse : String → List Token) (baseDir : String) (data : Json) : Bool :=
  match data with
  | .obj fields =>
    match Json.lookup fields "cells" with
    | some (.arr cells) => cells.all (cellOK parse baseDir)
    | _ => false
  | _ => false

/-- The joined source text of one markdown-typed cell with an array
source; `none` for every other cell. -/
def markdownCellText (cell : Json) : Option String :=
  match cell with
  | .obj cf =>
    match Json.lookup cf "cell_type" with
    | some (.str t) =>
      if t = "markdown" then
        match Json.lookup cf "source" with
        | some (.arr elems) => some (jsonJoin "" elems)
        | _ => none
      else none
    | _ => none
  | _ => none

/-- The joined source text of every markdown-typed cell, in document order. -/
def markdownCellTexts (data : Json) : List String :=
  match data with
  | .obj fields =>
    match Json.lookup fields "cells" with
    | some (.arr cells) => cells.filterMap markdownCellText
    | _ => []
  | _ => []

/-- A source line the rewrite callback processes without throwing: a
string whose rewrite succeeds. -/
def lineOK (oldDir newDir : String) (l : Json) : Bool :=
  match l with
  | .str s => (updateMarkdownLinks s oldDir newDir).isOk
  | _ => false

/-- The rewritten form of one source line. -/
def lineRewrite (oldDir newDir : String) (l : Json) : Json :=
  match l with
  | .str s => .str ((updateMarkdownLinks s oldDir newDir).toOption.getD s)
  | other => other

/-- A cell the rewrite loop processes without throwing. -/
def cellUpdatable (oldDir newDir : String) (cell : Json) : Bool :=
  match cell with
  | .null => false
  | .obj fields =>
    match Json.lookup fields "cell_type" with
    | some (.str t) =>
      if t = "markdown" then
        match Json.lookup fields "source" with
        | some src =>
          if jsFalsy src then true
          else
            match src with
            | .arr lines => lines.all (lineOK oldDir newDir)
            | _ => false
        | none => true
      else true
    | _ => true
  | _ => true

/-- A notebook document the rewrite loop processes without throwing. -/
def notebookUpdatable (oldDir newDir : String) (data : Json) : Bool :=
  match data with
  | .null => false
  | .obj fields =>
    match Json.lookup fields "cells" with
    | some v =>
      if jsFalsy v then true
      else
        match v with
        | .arr cells => cells.all (cellUpdatable oldDir newDir)
        | .str _ => true
        | _ => false
    | none => true
  | _ => true

/-- The claim's description of one rewritten cell: a markdown cell's
source lines are rewritten one by one (length preserved), every other
cell and field is untouched. -/
def specRewriteCell (oldDir newDir : String) (cell : Json) : Json :=
  match cell with
  | .obj fields =>
    match Json.lookup fields "cell_type", Json.lookup fields "source" with
    | some (.str "markdown"), some (.arr lines) =>
      .obj (setField fields "source" (.arr (lines.map (lineRewrite oldDir newDir))))
    | _, _ => cell
  | _ => cell

/-- The claim's description of the rewritten notebook value. -/
def specNotebookRewrite (oldDir newDir : String) (data : Json) : Json :=
  match data with
  | .obj fields =>
    match Json.lookup fields "cells" with
    | some (.arr cells) =>
      .obj (setField fields "cells" (.arr (cells.map (specRewriteCell oldDir newDir))))
    | _ => data
  | _ => data

/-! ## Auxiliary definitions for the development -/

/-- Effectful map over a list in the `Option` monad: the first failure
aborts the whole computation (a thrown exception). -/
def optionMapM {α β : Type} (f : α → Option β) : List α → Option (List β)
  | [] => some []
  | x :: xs =>
    match f x with
    | none => none
    | some y => (optionMapM f xs).map (fun ys => y :: ys)

/-- The last nonempty segment of a path or glob pattern. -/
def lastSegOf (s : String) : String :=
  (segsOf s).getLastD ""

/-- The absolute path whose segments are exactly `l`. -/
def absOfSegs (l : List String) : String :=
  String.mk ('/' :: joinSegsAux l)

/-- A segment of a normalized absolute path: nonempty, slash-free and
not a dot or dot-dot segment. -/
def plainSeg (seg : String) : Bool :=
  (seg != "") && (seg != ".") && (seg != "..") && !(seg.data.contains '/')

/-- A concrete markdown parse oracle for Scenario 3: the one markdown
cell text parses to a single inline link token. -/
def scenario3Parse : String → List Token :=
  fun s =>
    if s = "This has a [link](file.md)." then [.mk "link_open" [("href", "file.md")] []]
    else []

/-- The Scenario 3 notebook: one markdown cell and one code cell. -/
def scenario3Notebook : Json :=
  .obj [("cells", .arr
    [ .obj [("cell_type", .str "markdown"),
            ("source", .arr [.str "This has a [link](file.md)."])],
      .obj [("cell_type", .str "code"),
            ("source", .arr [.str "print"])] ])]

/-- A small notebook with one markdown cell, used to witness the
notebook rewrite characterization. -/
def sampleNotebook : Json :=
  .obj [("cells", .arr
    [ .obj [("cell_type", .str "markdown"),
            ("source", .arr [.str "[a](img.png)\n"])] ])]

/-! ## Lemmas: classification and extraction -/

lemma startsWithStr_headChar {s p : String} {c : Char} {cs : List Char}
    (h : startsWithStr s p = true) (hp : p.data = c :: cs) :
    ∃ t, s.data = c :: t := by
  rcases List.isPrefixOf_iff_prefix.mp h with ⟨t, ht⟩
  rw [hp] at ht
  exact ⟨cs ++ t, by simpa using ht.symm⟩

lemma isUrlLink_headChar {s : String} (h : isUrlLink s = true) :
    ∃ t, s.data = 'h' :: t := by
  have h2 : startsWithStr s "http://" = true ∨ startsWithStr s "https://" = true := by
    simpa [isUrlLink] using h
  rcases h2 with h2 | h2
  · exact startsWithStr_headChar h2 rfl
  · exact startsWithStr_headChar h2 rfl

lemma headChar_unique {s : String} {c1 c2 : Char} (h1 : ∃ t, s.data = c1 :: t)
    (h2 : ∃ t, s.data = c2 :: t) : c1 = c2 := by
  rcases h1 with ⟨t1, e1⟩
  rcases h2 with ⟨t2, e2⟩
  rw [e1] at e2
  exact (List.cons.injEq _ _ _ _ ▸ e2).1

/-- The four skip conditions of the extractor are pairwise incompatible
(their prefixes begin with distinct characters), so together with the
default they partition all raw targets. -/
lemma classifyTarget_spec (s : String) :
    (classifyTarget s = .url ↔ isUrlLink s = true) ∧
    (classifyTarget s = .anchor ↔ startsWithStr s "#" = true) ∧
    (classifyTarget s = .mailto ↔ startsWithStr s "mailto:" = true) ∧
    (classifyTarget s = .protocol ↔ startsWithStr s "javascript:" = true) ∧
    (classifyTarget s = .file ↔
      (isUrlLink s = false ∧ startsWithStr s "#" = false ∧
        startsWithStr s "mailto:" = false ∧ startsWithStr s "javascript:" = false)) := by
  have hu : isUrlLink s = true → ∃ t, s.data = 'h' :: t := isUrlLink_headChar
  have ha : startsWithStr s "#" = true → ∃ t, s.data = '#' :: t :=
    fun h => startsWithStr_headChar h rfl
  have hm : startsWithStr s "mailto:" = true → ∃ t, s.data = 'm' :: t :=
    fun h => startsWithStr_headChar h rfl
  have hj : startsWithStr s "javascript:" = true → ∃ t, s.data = 'j' :: t :=
    fun h => startsWithStr_headChar h rfl
  by_cases cu : isUrlLink s = true
  · have ca : startsWithStr s "#" = false := by
      by_contra h
      exact absurd (headChar_unique (hu cu) (ha (by simpa using h))) (by decide)
    have cm : startsWithStr s "mailto:" = false := by
      by_contra h
      exact absurd (headChar_unique (hu cu) (hm (by simpa using h))) (by decide)
    have cj : startsWithStr s "javascript:" = false := by
      by_contra h
      exact absurd (headChar_unique (hu cu) (hj (by simpa using h))) (by decide)
    simp [classifyTarget, cu, ca, cm, cj]
  · have cu2 : isUrlLink s = false := by simpa using cu
    by_cases c2 : startsWithStr s "#" = true
    · have cm : startsWithStr s "mailto:" = false := by
        by_contra h
        exact absurd (headChar_unique (ha c2) (hm (by simpa using h))) (by decide)
      have cj : startsWithStr s "javascript:" = false := by
        by_contra h
        exact absurd (headChar_unique (ha c2) (hj (by simpa using h))) (by decide)
      simp [classifyTarget, cu2, c2, cm, cj]
    · have c2f : startsWithStr s "#" = false := by simpa using c2
      by_cases c3 : startsWithStr s "mailto:" = true
      · have cj : startsWithStr s "javascript:" = false := by
          by_contra h
          exact absurd (headChar_unique (hm c3) (hj (by simpa using h))) (by decide)
        simp [classifyTarget, cu2, c2f, c3, cj]
      · have c3f : startsWithStr s "mailto:" = false := by simpa using c3
        by_cases c4 : startsWithStr s "javascript:" = true
        · simp [classifyTarget, cu2, c2f, c3f, c4]
        · have c4f : startsWithStr s "javascript:" = false := by simpa using c4
          simp [classifyTarget, cu2, c2f, c3f, c4f]

/-- The loop body, reformulated through the target it inspects and the
classification of that target. -/
lemma extractStep_eq (base : String) (acc : List String) (t : Token) :
    extractStep base acc t =
      match tokenTarget t with
      | none => some acc
      | some tgt =>
        if classifyTarget tgt = .file then
          (normalizeLink tgt base).map (fun n => acc ++ [n])
        else some acc := by
  unfold extractStep tokenTarget
  by_cases hty : (t.ty = "link_open" ∨ t.ty = "image")
  · simp only [hty, if_true, if_pos]
    cases h : tokenHref t with
    | none => simp
    | some href0 =>
      simp only [Option.map_some]
      by_cases cu : isUrlLink (stripAngleBrackets href0) = true
      · simp [classifyTarget, cu]
      · have cu2 : isUrlLink (stripAngleBrackets href0) = false := by simpa using cu
        by_cases c2 : startsWithStr (stripAngleBrackets href0) "#" = true
        · simp [classifyTarget, cu2, c2]
        · have c2f : startsWithStr (stripAngleBrackets href0) "#" = false := by simpa using c2
          by_cases c3 : startsWithStr (stripAngleBrackets href0) "mailto:" = true
          · simp [classifyTarget, cu2, c2f, c3]
          · have c3f : startsWithStr (stripAngleBrackets href0) "mailto:" = false := by
              simpa using c3
            by_cases c4 : startsWithStr (stripAngleBrackets href0) "javascript:" = true
            · simp [classifyTarget, cu2, c2f, c3f, c4]
            · have c4f : startsWithStr (stripAngleBrackets href0) "javascript:" = false := by
                simpa using c4
              simp [classifyTarget, cu2, c2f, c3f, c4f]
  · simp [hty]

/-- The extractor loop, characterized over any flattened token list. -/
lemma extract_fold (base : String) : ∀ (l : List Token) (acc : List String),
    l.foldlM (extractStep base) acc
      = (optionMapM (fun t => normalizeLink t base)
          ((l.filterMap tokenTarget).filter
            (fun s => classifyTarget s = .file))).map (fun ns => acc ++ ns) := by
  intro l
  induction l with
  | nil => intro acc; simp [optionMapM]
  | cons t ts ih =>
    intro acc
    rw [List.foldlM_cons, extractStep_eq]
    cases htt : tokenTarget t with
    | none => simp [List.filterMap_cons, htt, ih]
    | some tgt =>
      by_cases hf : classifyTarget tgt = LinkClass.file
      · simp only [List.filterMap_cons, htt, List.filter_cons, hf, decide_True, if_pos,
          optionMapM]
        cases hn : normalizeLink tgt base with
        | none => simp [hn]
        | some n =>
          simp only [hn, Option.map_some', bind, Option.bind, ih]
          cases hrest : (optionMapM (fun t => normalizeLink t base)
              ((ts.filterMap tokenTarget).filter
                (fun s => classifyTarget s = LinkClass.file))) with
          | none => simp
          | some ns => simp
      · have hf2 : ¬ (classifyTarget tgt = LinkClass.file) := hf
        simp [List.filterMap_cons, htt, List.filter_cons, hf2, ih]

/-- `extractMarkdownLinks` equals normalization mapped over the
file-classified targets, in order. -/
lemma extract_eq_mapM (tokens : List Token) (base : String) :
    extractMarkdownLinks tokens base
      = optionMapM (fun t => normalizeLink t base) (fileTargets tokens) := by
  unfold extractMarkdownLinks fileTargets rawTargets
  rw [extract_fold]
  cases h : (optionMapM (fun t => normalizeLink t base)
      (((walkTokensFlatten tokens).filterMap tokenTarget).filter
        (fun s => classifyTarget s = LinkClass.file))) with
  | none => simp [h]
  | some ns => simp [h]

lemma optionMapM_congr {α β : Type} {f g : α → Option β} :
    ∀ {l : List α}, (∀ x ∈ l, f x = g x) → optionMapM f l = optionMapM g l := by
  intro l
  induction l with
  | nil => intro _; rfl
  | cons x xs ih =>
    intro h
    simp only [optionMapM, h x (by simp), ih (fun y hy => h y (by simp [hy]))]

lemma optionMapM_eq_none_iff {α β : Type} {f : α → Option β} :
    ∀ {l : List α}, optionMapM f l = none ↔ ∃ x ∈ l, f x = none := by
  intro l
  induction l with
  | nil => simp [optionMapM]
  | cons x xs ih =>
    cases hx : f x with
    | none => simp [optionMapM, hx]
    | some y => simp [optionMapM, hx, ih]

/-! ## Claim C2: classification partition and output filtering -/

/-- C2: every raw target is classified into exactly one of url, anchor,
mailto, protocol and file — each class holds precisely when its own
prefix condition does, so the classes are mutually exclusive and
exhaustive — and the extractor's output is exactly the normalization of
the file-classified targets, in encounter order, one entry per
occurrence, with no deduplication; url, anchor, mailto and javascript
targets contribute nothing. -/
theorem claim_C2_classification (s : String) (tokens : List Token) (base : String) :
    (classifyTarget s = .url ↔ isUrlLink s = true) ∧
    (classifyTarget s = .anchor ↔ startsWithStr s "#" = true) ∧
    (classifyTarget s = .mailto ↔ startsWithStr s "mailto:" = true) ∧
    (classifyTarget s = .protocol ↔ startsWithStr s "javascript:" = true) ∧
    (classifyTarget s = .file ↔
      (isUrlLink s = false ∧ startsWithStr s "#" = false ∧
        startsWithStr s "mailto:" = false ∧ startsWithStr s "javascript:" = false)) ∧
    extractMarkdownLinks tokens base
      = optionMapM (fun t => normalizeLink t base)
          ((rawTargets tokens).filter (fun t => classifyTarget t = .file)) := by
  refine ⟨(classifyTarget_spec s).1, (classifyTarget_spec s).2.1,
    (classifyTarget_spec s).2.2.1, (classifyTarget_spec s).2.2.2.1,
    (classifyTarget_spec s).2.2.2.2, ?_⟩
  exact extract_eq_mapM tokens base

/-! ## Claim C1: normalization of file targets -/

/-- C1 fails as stated: a percent-encoded target written as an absolute
path (here from the document link `[x](/docs/Static%20Shock.md)` parsed
with base `/home/user/docs`) is classified `file`, yet the extractor
emits it verbatim instead of the decode-then-resolve value the claim
requires for every file target. -/
theorem claim_C1_counterexample :
    classifyTarget "/docs/Static%20Shock.md" = .file ∧
    extractMarkdownLinks [Token.mk "link_open" [("href", "/docs/Static%20Shock.md")] []]
        "/home/user/docs" = some ["/docs/Static%20Shock.md"] ∧
    (decodeURIComponent "/docs/Static%20Shock.md").map
        (fun d => resolvePosix "/home/user/docs" d) = some "/docs/Static Shock.md" ∧
    ("/docs/Static%20Shock.md" : String) ≠ "/docs/Static Shock.md" := by
  exact ⟨by decide, rfl, by decide, by decide⟩

/-- C1 (amended): every file-classified target that is not written as an
absolute path appears in the output as the percent-decoded raw target
resolved against the base directory (when decoding succeeds), while a
file target written as an absolute path appears verbatim, neither decoded
nor re-resolved; in particular `Static%20Shock.md` is decoded before
resolution (Scenario 2). -/
theorem claim_C1_file_normalization (tokens : List Token) (base : String) :
    extractMarkdownLinks tokens base
      = optionMapM
          (fun t =>
            if isAbsolutePosix t then some t
            else (decodeURIComponent t).map (fun d => resolvePosix base d))
          (fileTargets tokens) ∧
    extractMarkdownLinks [Token.mk "link_open" [("href", "Static%20Shock.md")] []]
        "/home/user/docs" = some ["/home/user/docs/Static Shock.md"] := by
  constructor
  · rw [extract_eq_mapM]
    apply optionMapM_congr
    intro t ht
    have hfile : classifyTarget t = .file := by
      have h2 := (List.mem_filter.mp ht).2
      exact of_decide_eq_true h2
    have hnu : isUrlLink t = false := ((classifyTarget_spec t).2.2.2.2.mp hfile).1
    have h12 : ¬(startsWithStr t "http://" = true) ∧ ¬(startsWithStr t "https://" = true) := by
      simpa [isUrlLink, not_or] using hnu
    have hh1 : startsWithStr t "http://" = false := by simpa using h12.1
    have hh2 : startsWithStr t "https://" = false := by simpa using h12.2
    by_cases habs : isAbsolutePosix t = true
    · simp [normalizeLink, habs]
    · have habs2 : isAbsolutePosix t = false := by simpa using habs
      simp [normalizeLink, habs2, hh1, hh2]
  · rfl

/-! ## Claim C8: error containment -/

/-- C8 fails as stated: a raw target containing a malformed
percent-encoding sequence (here `100%`, whose trailing percent sign has
no hex digits) makes `decodeURIComponent` throw a URIError that neither
`extractMarkdownLinks` nor `updateMarkdownLinks` catches, so extraction
and markdown rewriting propagate an exception instead of returning a
result. -/
theorem claim_C8_counterexample :
    decodeURIComponent "100%" = none ∧
    extractMarkdownLinks [Token.mk "link_open" [("href", "100%")] []] "/docs" = none ∧
    updateMarkdownLinks "[a](100%)" "/docs" "/other" = .error () := by
  exact ⟨rfl, rfl, rfl⟩

lemma matchAngleBody_spec {cs run g4 rest : List Char}
    (h : matchAngleBody cs = some (run, g4, rest)) :
    run ++ (g4 ++ ')' :: rest) = cs ∧ run ≠ [] := by
  have hpre : cs.takeWhile (fun c => decide (c ≠ '>' ∧ c ≠ ')'))
      ++ cs.drop (cs.takeWhile (fun c => decide (c ≠ '>' ∧ c ≠ ')'))).length = cs :=
    List.prefix_iff_eq_append.mp (List.takeWhile_prefix _)
  simp only [matchAngleBody] at h
  split at h
  · exact absurd h (by simp)
  · rename_i hne
    split at h
    · rename_i rest1 heq
      simp only [Option.some.injEq, Prod.mk.injEq] at h
      obtain ⟨h1, h2, h3⟩ := h
      subst h1
      subst h2
      subst h3
      refine ⟨?_, hne⟩
      rw [List.nil_append, ← heq]
      exact hpre
    · rename_i rest1 heq
      simp only [Option.some.injEq, Prod.mk.injEq] at h
      obtain ⟨h1, h2, h3⟩ := h
      subst h1
      subst h2
      subst h3
      refine ⟨?_, hne⟩
      rw [show (['>'] ++ ')' :: rest1 : List Char) = '>' :: ')' :: rest1 from rfl, ← heq]
      exact hpre
    · exact absurd h (by simp)

lemma matchParen_spec {cs g2 run g4 rest : List Char}
    (h : matchParen cs = some (g2, run, g4, rest)) :
    g2 ++ run ++ g4 ++ ')' :: rest = cs ∧ run ≠ [] := by
  unfold matchParen at h
  split at h
  · rename_i cs1
    split at h
    · rename_i run1 g41 rest1 heq
      simp only [Option.some.injEq, Prod.mk.injEq] at h
      obtain ⟨h1, h2, h3, h4⟩ := h
      have hs := matchAngleBody_spec heq
      constructor
      · rw [← h1, ← h2, ← h3, ← h4]
        rw [show (['<'] ++ run1 ++ g41 ++ ')' :: rest1 : List Char)
            = '<' :: (run1 ++ (g41 ++ ')' :: rest1)) from by simp, hs.1]
      · rw [← h2]
        exact hs.2
    · rename_i heq
      rw [Option.map_eq_some'] at h
      obtain ⟨⟨run1, g41, rest1⟩, hsome, hfp⟩ := h
      simp only [Prod.mk.injEq] at hfp
      obtain ⟨h1, h2, h3, h4⟩ := hfp
      have hs := matchAngleBody_spec hsome
      constructor
      · rw [← h1, ← h2, ← h3, ← h4, List.nil_append, List.append_assoc]
        exact hs.1
      · rw [← h2]
        exact hs.2
  · rw [Option.map_eq_some'] at h
    obtain ⟨⟨run1, g41, rest1⟩, hsome, hfp⟩ := h
    simp only [Prod.mk.injEq] at hfp
    obtain ⟨h1, h2, h3, h4⟩ := hfp
    have hs := matchAngleBody_spec hsome
    constructor
    · rw [← h1, ← h2, ← h3, ← h4, List.nil_append, List.append_assoc]
      exact hs.1
    · rw [← h2]
      exact hs.2

lemma matchLinkCore_consumes {cs1 : List Char} {m1 : LinkMatch}
    (h : (match cs1 with
      | '[' :: cs2 =>
        match List.drop (List.takeWhile (fun c => decide (c ≠ ']')) cs2).length cs2 with
        | ']' :: '(' :: cs3 =>
          match matchParen cs3 with
          | some (g2, run, g4, rest) =>
            some { total := '[' :: List.takeWhile (fun c => decide (c ≠ ']')) cs2
                     ++ ']' :: '(' :: (g2 ++ run ++ g4 ++ [')']),
                   g2 := g2, link := run, g4 := g4, rest := rest }
          | none => none
        | _ => none
      | _ => none) = some m1) :
    m1.total ++ m1.rest = cs1 ∧ m1.total ≠ [] := by
  split at h
  · rename_i cs2
    have hpre : cs2.takeWhile (fun c => decide (c ≠ ']'))
        ++ cs2.drop (cs2.takeWhile (fun c => decide (c ≠ ']'))).length = cs2 :=
      List.prefix_iff_eq_append.mp (List.takeWhile_prefix _)
    split at h
    · rename_i cs3 heq
      split at h
      · rename_i g2 run g4 rest heq2
        simp only [Option.some.injEq] at h
        subst h
        have hp := matchParen_spec heq2
        constructor
        · have hc3 : (g2 ++ run ++ g4 ++ [')']) ++ rest = cs3 := by
            rw [show (g2 ++ run ++ g4 ++ [')']) ++ rest
                = g2 ++ run ++ g4 ++ ')' :: rest from by simp, hp.1]
          rw [show ('[' :: List.takeWhile (fun c => decide (c ≠ ']')) cs2
                ++ ']' :: '(' :: (g2 ++ run ++ g4 ++ [')'])) ++ rest
              = '[' :: (List.takeWhile (fun c => decide (c ≠ ']')) cs2
                ++ ']' :: '(' :: ((g2 ++ run ++ g4 ++ [')']) ++ rest)) from by simp,
            hc3, ← heq, hpre]
        · simp
      · exact absurd h (by simp)
    · exact absurd h (by simp)
  · exact absurd h (by simp)

lemma matchLinkAt_consumes {isImage : Bool} {cs : List Char} {m : LinkMatch}
    (h : matchLinkAt isImage cs = some m) : m.total ++ m.rest = cs ∧ m.total ≠ [] := by
  simp only [matchLinkAt] at h
  split at h
  · split at h
    · rename_i cs1
      rw [Option.map_eq_some'] at h
      obtain ⟨m1, hm1, hmap⟩ := h
      have hc := matchLinkCore_consumes hm1
      subst hmap
      constructor
      · show ('!' :: m1.total) ++ m1.rest = '!' :: cs1
        rw [List.cons_append, hc.1]
      · show ('!' :: m1.total) ≠ []
        simp
    · exact absurd h (by simp)
  · exact matchLinkCore_consumes h

lemma rewriteOneLink_none {oldDir newDir : String} {m : LinkMatch}
    (h : rewriteOneLink oldDir newDir m = none) :
    isRelativeLink (String.mk m.link) = true ∧
      decodeURIComponent (String.mk m.link) = none := by
  by_cases hrel : isRelativeLink (String.mk m.link) = true
  · refine ⟨hrel, ?_⟩
    simp only [rewriteOneLink, hrel, if_true] at h
    cases hn : normalizeLink (String.mk m.link) oldDir with
    | none =>
      unfold normalizeLink at hn
      split at hn
      · exact absurd hn (by simp)
      · exact Option.map_eq_none'.mp hn
    | some target =>
      rw [hn] at h
      exact absurd h (by simp)
  · exfalso
    simp only [rewriteOneLink] at h
    rw [if_neg hrel] at h
    exact Option.noConfusion h

lemma scanReplace_none {oldDir newDir : String} {isImage : Bool} :
    ∀ (fuel : Nat) (cs : List Char), cs.length < fuel →
      scanReplace oldDir newDir isImage fuel cs = none →
      ∃ suffix m, suffix <:+ cs ∧ matchLinkAt isImage suffix = some m ∧
        rewriteOneLink oldDir newDir m = none := by
  intro fuel
  induction fuel with
  | zero => intro cs hlt h; exact absurd hlt (by omega)
  | succ fuel ih =>
    intro cs hlt h
    cases cs with
    | nil => exact absurd h (by simp [scanReplace])
    | cons c cs1 =>
      simp only [scanReplace] at h
      split at h
      · rename_i m hm
        split at h
        · rename_i hr
          exact ⟨c :: cs1, m, List.suffix_refl _, hm, hr⟩
        · rename_i repl hr
          have h2 : scanReplace oldDir newDir isImage fuel m.rest = none :=
            Option.map_eq_none'.mp h
          have hcons := matchLinkAt_consumes hm
          have hlen : m.rest.length < fuel := by
            have hsum : m.total.length + m.rest.length = cs1.length + 1 := by
              rw [← List.length_append, hcons.1]
              simp
            have ht1 : 1 ≤ m.total.length := by
              cases htot : m.total with
              | nil => exact absurd htot hcons.2
              | cons a t => simp
            simp only [List.length_cons] at hlt
            omega
          obtain ⟨suffix, m2, hsuf, hm2, hr2⟩ := ih m.rest hlen h2
          exact ⟨suffix, m2, hsuf.trans ⟨m.total, hcons.1⟩, hm2, hr2⟩
      · rename_i hm
        have h2 : scanReplace oldDir newDir isImage fuel cs1 = none :=
          Option.map_eq_none'.mp h
        have hlen : cs1.length < fuel := by
          simp only [List.length_cons] at hlt
          omega
        obtain ⟨suffix, m2, hsuf, hm2, hr2⟩ := ih cs1 hlen h2
        exact ⟨suffix, m2, hsuf.trans (List.suffix_cons c cs1), hm2, hr2⟩

lemma updateMarkdownLinks_error_cause {text oldDir newDir : String}
    (h : updateMarkdownLinks text oldDir newDir = .error ()) :
    oldDir ≠ newDir ∧
      ((∃ suffix m, suffix <:+ text.data ∧ matchLinkAt false suffix = some m ∧
          isRelativeLink (String.mk m.link) = true ∧
          decodeURIComponent (String.mk m.link) = none) ∨
        (∃ out1 suffix m,
          scanReplace oldDir newDir false (text.data.length + 1) text.data = some out1 ∧
          suffix <:+ out1 ∧ matchLinkAt true suffix = some m ∧
          isRelativeLink (String.mk m.link) = true ∧
          decodeURIComponent (String.mk m.link) = none)) := by
  unfold updateMarkdownLinks at h
  by_cases hd : oldDir = newDir
  · rw [if_pos hd] at h
    exact absurd h (by simp)
  · refine ⟨hd, ?_⟩
    rw [if_neg hd] at h
    split at h
    · rename_i h1
      left
      obtain ⟨suffix, m, hsuf, hm, hr⟩ := scanReplace_none _ _ (by omega) h1
      have hc := rewriteOneLink_none hr
      exact ⟨suffix, m, hsuf, hm, hc.1, hc.2⟩
    · rename_i out1 h1
      right
      split at h
      · rename_i h2
        obtain ⟨suffix, m, hsuf, hm, hr⟩ := scanReplace_none _ _ (by omega) h2
        have hc := rewriteOneLink_none hr
        exact ⟨out1, suffix, m, h1, hsuf, hm, hc.1, hc.2⟩
      · rename_i out2 h2
        exact absurd h (by simp)

/-- C8 (amended): markdown extraction propagates an exception exactly
when some extracted non-absolute file target fails to percent-decode;
the markdown rewrite is not exception-free either, but it errors only
when the directories differ and some link matched in the document (plain
pass) or in the plain pass's output (image pass) has a relative target
that fails to percent-decode; the remaining core operations degrade
instead of failing — notebook extraction returns the empty sequence when
the content is absent or any parse or processing error occurs, a
candidate search whose backend throws on every query returns empty exact
and loose tiers, and the notebook rewrite returns its input unchanged
when the content is absent or its processing errors. -/
theorem claim_C8_error_containment :
    (∀ tokens base, extractMarkdownLinks tokens base = none ↔
        ∃ t ∈ fileTargets tokens, isAbsolutePosix t = false ∧ decodeURIComponent t = none) ∧
    (∀ parse d base, notebookCellsValue d = .error () →
        extractLinksFromNotebook parse (some d) base = []) ∧
    (∀ parse d base cells, notebookCellsValue d = .ok cells →
        notebookCellLinks parse base cells = .error () →
        extractLinksFromNotebook parse (some d) base = []) ∧
    (∀ parse base, extractLinksFromNotebook parse none base = []) ∧
    (∀ broken, findSmartReplacementCandidates (fun _ _ => none) broken
        = { exactFolderMatches := [], looseMatches := [] }) ∧
    (∀ content oldDir newDir, updateNotebookLinks none content oldDir newDir = content) ∧
    (∀ d content oldDir newDir, updateNotebookLinksCore oldDir newDir d = .error () →
        updateNotebookLinks (some d) content oldDir newDir = content) ∧
    (∀ text oldDir newDir, updateMarkdownLinks text oldDir newDir = .error () →
        oldDir ≠ newDir ∧
          ((∃ suffix m, suffix <:+ text.data ∧ matchLinkAt false suffix = some m ∧
              isRelativeLink (String.mk m.link) = true ∧
              decodeURIComponent (String.mk m.link) = none) ∨
            (∃ out1 suffix m,
              scanReplace oldDir newDir false (text.data.length + 1) text.data
                = some out1 ∧
              suffix <:+ out1 ∧ matchLinkAt true suffix = some m ∧
              isRelativeLink (String.mk m.link) = true ∧
              decodeURIComponent (String.mk m.link) = none))) := by
  refine ⟨?_, ?_, ?_, ?_, ?_, ?_, ?_, ?_⟩
  · intro tokens base
    rw [extract_eq_mapM, optionMapM_eq_none_iff]
    constructor
    · rintro ⟨t, ht, hn⟩
      refine ⟨t, ht, ?_⟩
      have hfile : classifyTarget t = .file := by
        have h2 := (List.mem_filter.mp ht).2
        exact of_decide_eq_true h2
      have hnu : isUrlLink t = false := ((classifyTarget_spec t).2.2.2.2.mp hfile).1
      have h12 : ¬(startsWithStr t "http://" = true) ∧
          ¬(startsWithStr t "https://" = true) := by
        simpa [isUrlLink, not_or] using hnu
      have hh1 : startsWithStr t "http://" = false := by simpa using h12.1
      have hh2 : startsWithStr t "https://" = false := by simpa using h12.2
      by_cases habs : isAbsolutePosix t = true
      · rw [normalizeLink] at hn
        simp [habs] at hn
      · have habs2 : isAbsolutePosix t = false := by simpa using habs
        rw [normalizeLink] at hn
        simp only [habs2, hh1, hh2] at hn
        simp only [Bool.false_eq_true, or_self, if_false, Option.map_eq_none'] at hn
        exact ⟨habs2, hn⟩
    · rintro ⟨t, ht, habs, hdec⟩
      refine ⟨t, ht, ?_⟩
      have hfile : classifyTarget t = .file := by
        have h2 := (List.mem_filter.mp ht).2
        exact of_decide_eq_true h2
      have hnu : isUrlLink t = false := ((classifyTarget_spec t).2.2.2.2.mp hfile).1
      have h12 : ¬(startsWithStr t "http://" = true) ∧
          ¬(startsWithStr t "https://" = true) := by
        simpa [isUrlLink, not_or] using hnu
      have hh1 : startsWithStr t "http://" = false := by simpa using h12.1
      have hh2 : startsWithStr t "https://" = false := by simpa using h12.2
      simp [normalizeLink, habs, hdec, hh1, hh2]
  · intro parse d base h
    simp [extractLinksFromNotebook, h]
  · intro parse d base cells h1 h2
    simp [extractLinksFromNotebook, h1, h2]
  · intro parse base
    rfl
  · intro broken
    have hstep : ∀ alt, crossFormatStep (fun _ _ => none) (parsePosix broken) ([], []) alt
        = ([], []) := by
      intro alt
      by_cases hd : (parsePosix broken).dir ≠ ""
      · simp [crossFormatStep, hd]
      · simp [crossFormatStep, hd]
    have hfold : ∀ exts : List String,
        exts.foldl (crossFormatStep (fun _ _ => none) (parsePosix broken)) ([], [])
          = ([], []) := by
      intro exts
      induction exts with
      | nil => rfl
      | cons e es ih => rw [List.foldl_cons, hstep, ih]
    by_cases hd : (parsePosix broken).dir ≠ "" <;>
      by_cases he : (parsePosix broken).ext ≠ "" <;>
        simp [findSmartReplacementCandidates, mergedTiers, exactTier1, looseTier1,
          hd, he, hfold]
  · intro content oldDir newDir
    unfold updateNotebookLinks
    split <;> rfl
  · intro d content oldDir newDir h
    unfold updateNotebookLinks
    split
    · rfl
    · simp [h]
  · intro text oldDir newDir h
    exact updateMarkdownLinks_error_cause h

/-- Witness for C8 (amended): a notebook whose `cells` value is a number
makes the cell loop throw, and extraction returns the empty sequence. -/
theorem claim_C8_error_containment_witness :
    extractLinksFromNotebook (fun _ => []) (some (.obj [("cells", Json.num 5)])) "/d" = [] :=
  claim_C8_error_containment.2.1 (fun _ => []) (.obj [("cells", Json.num 5)]) "/d" rfl

/-! ## Claim C3: broken-link classification -/

/-- C3: for every filesystem state and normalized path, `isLinkBroken`
returns false exactly when the path stats as a regular file or as a
directory; a not-found, access-denied or other stat error, or an entry
that is neither a file nor a directory, is reported broken. -/
theorem claim_C3_isLinkBroken_iff (fs : String → StatResult) (link : String) :
    isLinkBroken fs link = false ↔
      ∃ isFile isDirectory, fs link = .entry isFile isDirectory ∧
        (isFile = true ∨ isDirectory = true) := by
  cases h : fs link with
  | entry f d =>
    cases f <;> cases d <;> simp [isLinkBroken, h]
  | errENOENT => simp [isLinkBroken, h]
  | errEACCES => simp [isLinkBroken, h]
  | errOther => simp [isLinkBroken, h]

/-- Witness for C3 at a concrete filesystem: a path that stats as a
regular file is not broken. -/
theorem claim_C3_isLinkBroken_iff_witness :
    isLinkBroken (fun _ => StatResult.entry true false) "/w/doc.md" = false :=
  (claim_C3_isLinkBroken_iff (fun _ => StatResult.entry true false) "/w/doc.md").mpr
    ⟨true, false, rfl, Or.inl rfl⟩

/-! ## Claim C5: the repair flow's selection policy -/

/-- C5: exactly one exact-tier match is auto-selected; with no exact-tier
match, exactly one loose-tier match is auto-selected; in every other
combination the flow defers to interactive selection or reports the link,
never auto-applying a repair. -/
theorem claim_C5_selection_policy (exact loose : List String) :
    (∀ p, exact = [p] → repairDecision exact loose = .autoFix p) ∧
    (∀ p, exact = [] → loose = [p] → repairDecision exact loose = .autoFix p) ∧
    (1 < exact.length ∨ (exact = [] ∧ loose.length ≠ 1) →
      repairDecision exact loose = .interactive (exact ++ loose) ∨
        repairDecision exact loose = .report) := by
  refine ⟨?_, ?_, ?_⟩
  · intro p hp
    subst hp
    simp [repairDecision]
  · intro p he hl
    subst he
    subst hl
    simp [repairDecision]
  · intro h
    rcases h with h | ⟨he, hl⟩
    · have h1 : exact.length ≠ 1 := by omega
      have h0 : exact.length ≠ 0 := by omega
      simp [repairDecision, h1, h0, h]
    · subst he
      rcases Nat.lt_or_ge 1 loose.length with h2 | h2
      · simp [repairDecision, hl, h2]
      · have h0 : loose.length = 0 := by omega
        simp [repairDecision, hl, h0]

/-- Witness for C5, in the shape of Scenario 5: one exact-structure match
and nothing else auto-selects that match. -/
theorem claim_C5_selection_policy_witness :
    repairDecision ["/w/folder/name.md"] [] = .autoFix "/w/folder/name.md" :=
  (claim_C5_selection_policy ["/w/folder/name.md"] []).1 "/w/folder/name.md" rfl

/-! ## Claim C9: identical directories are a no-op -/

/-- C9: when the old and new base directories are the identical path,
both the markdown rewrite and the notebook rewrite return the input text
completely unchanged. -/
theorem claim_C9_same_dir_noop (text dir content : String) (parsed : Option Json) :
    updateMarkdownLinks text dir dir = .ok text ∧
      updateNotebookLinks parsed content dir dir = content := by
  constructor
  · simp [updateMarkdownLinks]
  · simp [updateNotebookLinks]

/-! ## Claim C7: notebook extraction -/

lemma notebookCellLinks_ok (parse : String → List Token) (base : String) :
    ∀ cells : List Json, cells.all (cellOK parse base) = true →
      notebookCellLinks parse base cells
        = .ok ((cells.filterMap markdownCellText).map
            (fun s => (extractMarkdownLinks (parse s) base).getD [])).flatten := by
  intro cells
  induction cells with
  | nil => intro _; rfl
  | cons cell rest ih =>
    intro hall
    rw [List.all_cons, Bool.and_eq_true] at hall
    obtain ⟨hc, hrest⟩ := hall
    cases cell with
    | null => simp [cellOK] at hc
    | bool b => simp [notebookCellLinks, markdownCellText, ih hrest, List.filterMap_cons]
    | num n => simp [notebookCellLinks, markdownCellText, ih hrest, List.filterMap_cons]
    | str s2 => simp [notebookCellLinks, markdownCellText, ih hrest, List.filterMap_cons]
    | arr xs => simp [notebookCellLinks, markdownCellText, ih hrest, List.filterMap_cons]
    | obj cf =>
      cases hct : Json.lookup cf "cell_type" with
      | none =>
        simp [notebookCellLinks, hct, markdownCellText, ih hrest, List.filterMap_cons]
      | some v =>
        cases v with
        | str t =>
          by_cases ht : t = "markdown"
          · subst ht
            cases hsrc : Json.lookup cf "source" with
            | none => simp [cellOK, hct, hsrc] at hc
            | some src =>
              cases src with
              | arr elems =>
                have hsome : (extractMarkdownLinks
                    (parse (jsonJoin "" elems)) base).isSome = true := by
                  simpa [cellOK, hct, hsrc] using hc
                obtain ⟨links, hl⟩ := Option.isSome_iff_exists.mp hsome
                simp [notebookCellLinks, hct, hsrc, hl, ih hrest, markdownCellText,
                  List.filterMap_cons, Except.map]
              | null => simp [cellOK, hct, hsrc] at hc
              | bool b => simp [cellOK, hct, hsrc] at hc
              | num n => simp [cellOK, hct, hsrc] at hc
              | str s3 => simp [cellOK, hct, hsrc] at hc
              | obj cf2 => simp [cellOK, hct, hsrc] at hc
          · simp [notebookCellLinks, hct, ht, ih hrest, markdownCellText,
              List.filterMap_cons]
        | null => simp [notebookCellLinks, hct, markdownCellText, ih hrest,
            List.filterMap_cons]
        | bool b => simp [notebookCellLinks, hct, markdownCellText, ih hrest,
            List.filterMap_cons]
        | num n => simp [notebookCellLinks, hct, markdownCellText, ih hrest,
            List.filterMap_cons]
        | arr xs => simp [notebookCellLinks, hct, markdownCellText, ih hrest,
            List.filterMap_cons]
        | obj cf2 => simp [notebookCellLinks, hct, markdownCellText, ih hrest,
            List.filterMap_cons]

lemma notebookCellLinks_err (parse : String → List Token) (base : String) :
    ∀ cells : List Json, cells.all (cellOK parse base) = false →
      notebookCellLinks parse base cells = .error () := by
  intro cells
  induction cells with
  | nil => intro h; simp [List.all_nil] at h
  | cons cell rest ih =>
    intro hall
    by_cases hc : cellOK parse base cell = true
    · have hrest : rest.all (cellOK parse base) = false := by
        rw [List.all_cons] at hall
        simpa [hc] using hall
      cases cell with
      | null => simp [cellOK] at hc
      | bool b => simp [notebookCellLinks, ih hrest]
      | num n => simp [notebookCellLinks, ih hrest]
      | str s2 => simp [notebookCellLinks, ih hrest]
      | arr xs => simp [notebookCellLinks, ih hrest]
      | obj cf =>
        cases hct : Json.lookup cf "cell_type" with
        | none => simp [notebookCellLinks, hct, ih hrest]
        | some v =>
          cases v with
          | str t =>
            by_cases ht : t = "markdown"
            · subst ht
              cases hsrc : Json.lookup cf "source" with
              | none => simp [cellOK, hct, hsrc] at hc
              | some src =>
                cases src with
                | arr elems =>
                  have hsome : (extractMarkdownLinks
                      (parse (jsonJoin "" elems)) base).isSome = true := by
                    simpa [cellOK, hct, hsrc] using hc
                  obtain ⟨links, hl⟩ := Option.isSome_iff_exists.mp hsome
                  simp [notebookCellLinks, hct, hsrc, hl, ih hrest, Except.map]
                | null => simp [cellOK, hct, hsrc] at hc
                | bool b => simp [cellOK, hct, hsrc] at hc
                | num n => simp [cellOK, hct, hsrc] at hc
                | str s3 => simp [cellOK, hct, hsrc] at hc
                | obj cf2 => simp [cellOK, hct, hsrc] at hc
            · simp [notebookCellLinks, hct, ht, ih hrest]
          | null => simp [notebookCellLinks, hct, ih hrest]
          | bool b => simp [notebookCellLinks, hct, ih hrest]
          | num n => simp [notebookCellLinks, hct, ih hrest]
          | arr xs => simp [notebookCellLinks, hct, ih hrest]
          | obj cf2 => simp [notebookCellLinks, hct, ih hrest]
    · have hcf : cellOK parse base cell = false := by simpa using hc
      cases cell with
      | null => rfl
      | bool b => simp [cellOK] at hcf
      | num n => simp [cellOK] at hcf
      | str s2 => simp [cellOK] at hcf
      | arr xs => simp [cellOK] at hcf
      | obj cf =>
        cases hct : Json.lookup cf "cell_type" with
        | none => simp [cellOK, hct] at hcf
        | some v =>
          cases v with
          | str t =>
            by_cases ht : t = "markdown"
            · subst ht
              cases hsrc : Json.lookup cf "source" with
              | none => simp [notebookCellLinks, hct, hsrc]
              | some src =>
                cases src with
                | arr elems =>
                  have hnone : extractMarkdownLinks (parse (jsonJoin "" elems)) base
                      = none := by
                    have h2 : (extractMarkdownLinks
                        (parse (jsonJoin "" elems)) base).isSome = false := by
                      simpa [cellOK, hct, hsrc] using hcf
                    cases hx : extractMarkdownLinks (parse (jsonJoin "" elems)) base with
                    | none => rfl
                    | some l => rw [hx] at h2; simp at h2
                  simp [notebookCellLinks, hct, hsrc, hnone]
                | null => simp [notebookCellLinks, hct, hsrc]
                | bool b => simp [notebookCellLinks, hct, hsrc]
                | num n => simp [notebookCellLinks, hct, hsrc]
                | str s3 => simp [notebookCellLinks, hct, hsrc]
                | obj cf2 => simp [notebookCellLinks, hct, hsrc]
            · simp [cellOK, hct, ht] at hcf
          | null => simp [cellOK, hct] at hcf
          | bool b => simp [cellOK, hct] at hcf
          | num n => simp [cellOK, hct] at hcf
          | arr xs => simp [cellOK, hct] at hcf
          | obj cf2 => simp [cellOK, hct] at hcf

/-- C7: when the content parses and has the expected cell structure, the
result is exactly the concatenation, in document order, of the extractor's
output on each markdown-typed cell's joined source lines, other cells
contributing nothing; any parse failure or structural mismatch yields the
empty sequence, and no exception escapes (the function is total). -/
theorem claim_C7_notebook_extraction (parse : String → List Token) (d : Json)
    (base : String) :
    (notebookWF parse base d = true →
      extractLinksFromNotebook parse (some d) base
        = ((markdownCellTexts d).map
            (fun s => (extractMarkdownLinks (parse s) base).getD [])).flatten) ∧
    (notebookWF parse base d = false →
      extractLinksFromNotebook parse (some d) base = []) ∧
    extractLinksFromNotebook parse none base = [] := by
  refine ⟨?_, ?_, rfl⟩
  · intro hwf
    cases d with
    | null => simp [notebookWF] at hwf
    | bool b => simp [notebookWF] at hwf
    | num n => simp [notebookWF] at hwf
    | str s2 => simp [notebookWF] at hwf
    | arr xs => simp [notebookWF] at hwf
    | obj fields =>
      cases hcells : Json.lookup fields "cells" with
      | none => simp [notebookWF, hcells] at hwf
      | some v =>
        cases v with
        | arr cells =>
          have hall : cells.all (cellOK parse base) = true := by
            simpa [notebookWF, hcells] using hwf
          simp [extractLinksFromNotebook, notebookCellsValue, hcells, jsFalsy,
            notebookCellLinks_ok parse base cells hall, markdownCellTexts]
        | null => simp [notebookWF, hcells] at hwf
        | bool b => simp [notebookWF, hcells] at hwf
        | num n => simp [notebookWF, hcells] at hwf
        | str s2 => simp [notebookWF, hcells] at hwf
        | obj cf => simp [notebookWF, hcells] at hwf
  · intro hwf
    cases d with
    | null => rfl
    | bool b => simp [extractLinksFromNotebook, notebookCellsValue, notebookCellLinks]
    | num n => simp [extractLinksFromNotebook, notebookCellsValue, notebookCellLinks]
    | str s2 => simp [extractLinksFromNotebook, notebookCellsValue, notebookCellLinks]
    | arr xs => simp [extractLinksFromNotebook, notebookCellsValue, notebookCellLinks]
    | obj fields =>
      cases hcells : Json.lookup fields "cells" with
      | none => simp [extractLinksFromNotebook, notebookCellsValue, hcells,
          notebookCellLinks]
      | some v =>
        by_cases hf : jsFalsy v = true
        · simp [extractLinksFromNotebook, notebookCellsValue, hcells, hf,
            notebookCellLinks]
        · have hf2 : jsFalsy v = false := by simpa using hf
          cases v with
          | arr cells =>
            have hall : cells.all (cellOK parse base) = false := by
              simpa [notebookWF, hcells] using hwf
            simp [extractLinksFromNotebook, notebookCellsValue, hcells, hf2,
              notebookCellLinks_err parse base cells hall]
          | str s2 => simp [extractLinksFromNotebook, notebookCellsValue, hcells, hf2,
              notebookCellLinks]
          | null => simp [jsFalsy] at hf2
          | bool b => simp [extractLinksFromNotebook, notebookCellsValue, hcells, hf2]
          | num n => simp [extractLinksFromNotebook, notebookCellsValue, hcells, hf2]
          | obj cf => simp [extractLinksFromNotebook, notebookCellsValue, hcells, hf2]

/-- Witness for C7 at Scenario 3: a notebook with one markdown cell
containing a file link and one code cell extracts exactly that link. -/
theorem claim_C7_notebook_extraction_witness :
    extractLinksFromNotebook scenario3Parse (some scenario3Notebook) "/home/user/docs"
      = ["/home/user/docs/file.md"] := by
  have h := (claim_C7_notebook_extraction scenario3Parse scenario3Notebook
    "/home/user/docs").1 (by rfl)
  rw [h]
  rfl

/-! ## Claim C10: notebook rewriting re-serializes the whole document -/

lemma mapLines_ok (oldDir newDir : String) :
    ∀ lines : List Json, lines.all (lineOK oldDir newDir) = true →
      mapLines oldDir newDir lines = .ok (lines.map (lineRewrite oldDir newDir)) := by
  intro lines
  induction lines with
  | nil => intro _; rfl
  | cons l rest ih =>
    intro hall
    rw [List.all_cons, Bool.and_eq_true] at hall
    obtain ⟨hl, hrest⟩ := hall
    cases l with
    | str s =>
      cases hu : updateMarkdownLinks s oldDir newDir with
      | error e => simp [lineOK, hu, Except.isOk, Except.toBool] at hl
      | ok v =>
        simp [mapLines, hu, ih hrest, lineRewrite, Except.toOption, Except.map]
    | null => simp [lineOK] at hl
    | bool b => simp [lineOK] at hl
    | num n => simp [lineOK] at hl
    | arr xs => simp [lineOK] at hl
    | obj cf => simp [lineOK] at hl

lemma mapLines_err (oldDir newDir : String) :
    ∀ lines : List Json, lines.all (lineOK oldDir newDir) = false →
      mapLines oldDir newDir lines = .error () := by
  intro lines
  induction lines with
  | nil => intro h; simp [List.all_nil] at h
  | cons l rest ih =>
    intro hall
    by_cases hl : lineOK oldDir newDir l = true
    · have hrest : rest.all (lineOK oldDir newDir) = false := by
        rw [List.all_cons] at hall
        simpa [hl] using hall
      cases l with
      | str s =>
        cases hu : updateMarkdownLinks s oldDir newDir with
        | error e => simp [lineOK, hu, Except.isOk, Except.toBool] at hl
        | ok v => simp [mapLines, hu, ih hrest, Except.map]
      | null => simp [lineOK] at hl
      | bool b => simp [lineOK] at hl
      | num n => simp [lineOK] at hl
      | arr xs => simp [lineOK] at hl
      | obj cf => simp [lineOK] at hl
    · have hlf : lineOK oldDir newDir l = false := by simpa using hl
      cases l with
      | str s =>
        cases hu : updateMarkdownLinks s oldDir newDir with
        | error e =>
          cases e
          simp [mapLines, hu]
        | ok v => simp [lineOK, hu, Except.isOk, Except.toBool] at hlf
      | null => rfl
      | bool b => rfl
      | num n => rfl
      | arr xs => rfl
      | obj cf => rfl

lemma processCell_spec (oldDir newDir : String) (cell : Json) :
    (cellUpdatable oldDir newDir cell = true →
      processCell oldDir newDir cell = .ok (specRewriteCell oldDir newDir cell)) ∧
    (cellUpdatable oldDir newDir cell = false →
      processCell oldDir newDir cell = .error ()) := by
  cases cell with
  | null => exact ⟨fun h => by simp [cellUpdatable] at h, fun _ => rfl⟩
  | bool b => exact ⟨fun _ => rfl, fun h => by simp [cellUpdatable] at h⟩
  | num n => exact ⟨fun _ => rfl, fun h => by simp [cellUpdatable] at h⟩
  | str s => exact ⟨fun _ => rfl, fun h => by simp [cellUpdatable] at h⟩
  | arr xs => exact ⟨fun _ => rfl, fun h => by simp [cellUpdatable] at h⟩
  | obj fields =>
    cases hct : Json.lookup fields "cell_type" with
    | none =>
      exact ⟨fun _ => by simp [processCell, hct, specRewriteCell],
        fun h => by simp [cellUpdatable, hct] at h⟩
    | some v =>
      cases v with
      | str t =>
        by_cases ht : t = "markdown"
        · subst ht
          cases hsrc : Json.lookup fields "source" with
          | none =>
            exact ⟨fun _ => by simp [processCell, hct, hsrc, specRewriteCell],
              fun h => by simp [cellUpdatable, hct, hsrc] at h⟩
          | some src =>
            by_cases hf : jsFalsy src = true
            · constructor
              · intro _
                have hnotarr : ∀ lines, src ≠ .arr lines := by
                  intro lines he
                  subst he
                  simp [jsFalsy] at hf
                cases src with
                | arr lines => exact absurd rfl (hnotarr lines)
                | null => simp [processCell, hct, hsrc, hf, specRewriteCell]
                | bool b => simp [processCell, hct, hsrc, hf, specRewriteCell]
                | num n => simp [processCell, hct, hsrc, hf, specRewriteCell]
                | str s2 => simp [processCell, hct, hsrc, hf, specRewriteCell]
                | obj cf2 => simp [processCell, hct, hsrc, hf, specRewriteCell]
              · intro h
                simp [cellUpdatable, hct, hsrc, hf] at h
            · have hf2 : jsFalsy src = false := by simpa using hf
              cases src with
              | arr lines =>
                constructor
                · intro h
                  have hall : lines.all (lineOK oldDir newDir) = true := by
                    simpa [cellUpdatable, hct, hsrc, hf2] using h
                  simp [processCell, hct, hsrc, hf2, mapLines_ok oldDir newDir lines hall,
                    specRewriteCell]
                · intro h
                  have hall : lines.all (lineOK oldDir newDir) = false := by
                    simpa [cellUpdatable, hct, hsrc, hf2] using h
                  simp [processCell, hct, hsrc, hf2,
                    mapLines_err oldDir newDir lines hall]
              | null => simp [jsFalsy] at hf2
              | bool b =>
                refine ⟨fun h => ?_, fun _ => by simp [processCell, hct, hsrc, hf2]⟩
                simp [cellUpdatable, hct, hsrc, hf2] at h
              | num n =>
                refine ⟨fun h => ?_, fun _ => by simp [processCell, hct, hsrc, hf2]⟩
                simp [cellUpdatable, hct, hsrc, hf2] at h
              | str s2 =>
                refine ⟨fun h => ?_, fun _ => by simp [processCell, hct, hsrc, hf2]⟩
                simp [cellUpdatable, hct, hsrc, hf2] at h
              | obj cf2 =>
                refine ⟨fun h => ?_, fun _ => by simp [processCell, hct, hsrc, hf2]⟩
                simp [cellUpdatable, hct, hsrc, hf2] at h
        · constructor
          · intro _
            have ht2 : ("markdown" : String) ≠ t := fun he => ht he.symm
            simp [processCell, hct, ht, specRewriteCell, ht2]
          · intro h
            simp [cellUpdatable, hct, ht] at h
      | null =>
        exact ⟨fun _ => by simp [processCell, hct, specRewriteCell],
          fun h => by simp [cellUpdatable, hct] at h⟩
      | bool b =>
        exact ⟨fun _ => by simp [processCell, hct, specRewriteCell],
          fun h => by simp [cellUpdatable, hct] at h⟩
      | num n =>
        exact ⟨fun _ => by simp [processCell, hct, specRewriteCell],
          fun h => by simp [cellUpdatable, hct] at h⟩
      | arr xs =>
        exact ⟨fun _ => by simp [processCell, hct, specRewriteCell],
          fun h => by simp [cellUpdatable, hct] at h⟩
      | obj cf2 =>
        exact ⟨fun _ => by simp [processCell, hct, specRewriteCell],
          fun h => by simp [cellUpdatable, hct] at h⟩

lemma updateNotebookCells_spec (oldDir newDir : String) :
    ∀ cells : List Json,
      (cells.all (cellUpdatable oldDir newDir) = true →
        updateNotebookCells oldDir newDir cells
          = .ok (cells.map (specRewriteCell oldDir newDir))) ∧
      (cells.all (cellUpdatable oldDir newDir) = false →
        updateNotebookCells oldDir newDir cells = .error ()) := by
  intro cells
  induction cells with
  | nil => exact ⟨fun _ => rfl, fun h => by simp [List.all_nil] at h⟩
  | cons cell rest ih =>
    constructor
    · intro hall
      rw [List.all_cons, Bool.and_eq_true] at hall
      obtain ⟨hc, hrest⟩ := hall
      simp [updateNotebookCells, (processCell_spec oldDir newDir cell).1 hc,
        ih.1 hrest, Except.map]
    · intro hall
      by_cases hc : cellUpdatable oldDir newDir cell = true
      · have hrest : rest.all (cellUpdatable oldDir newDir) = false := by
          rw [List.all_cons] at hall
          simpa [hc] using hall
        simp [updateNotebookCells, (processCell_spec oldDir newDir cell).1 hc,
          ih.2 hrest, Except.map]
      · have hcf : cellUpdatable oldDir newDir cell = false := by simpa using hc
        simp [updateNotebookCells, (processCell_spec oldDir newDir cell).2 hcf]

lemma updateNotebookLinksCore_spec (oldDir newDir : String) (d : Json) :
    (notebookUpdatable oldDir newDir d = true →
      updateNotebookLinksCore oldDir newDir d
        = .ok (specNotebookRewrite oldDir newDir d)) ∧
    (notebookUpdatable oldDir newDir d = false →
      updateNotebookLinksCore oldDir newDir d = .error ()) := by
  cases d with
  | null => exact ⟨fun h => by simp [notebookUpdatable] at h, fun _ => rfl⟩
  | bool b => exact ⟨fun _ => by simp [updateNotebookLinksCore, specNotebookRewrite],
      fun h => by simp [notebookUpdatable] at h⟩
  | num n => exact ⟨fun _ => by simp [updateNotebookLinksCore, specNotebookRewrite],
      fun h => by simp [notebookUpdatable] at h⟩
  | str s => exact ⟨fun _ => by simp [updateNotebookLinksCore, specNotebookRewrite],
      fun h => by simp [notebookUpdatable] at h⟩
  | arr xs => exact ⟨fun _ => by simp [updateNotebookLinksCore, specNotebookRewrite],
      fun h => by simp [notebookUpdatable] at h⟩
  | obj fields =>
    cases hcells : Json.lookup fields "cells" with
    | none =>
      exact ⟨fun _ => by simp [updateNotebookLinksCore, hcells, specNotebookRewrite],
        fun h => by simp [notebookUpdatable, hcells] at h⟩
    | some v =>
      by_cases hf : jsFalsy v = true
      · constructor
        · intro _
          have hnotarr : ∀ cs, v ≠ .arr cs := by
            intro cs he
            subst he
            simp [jsFalsy] at hf
          cases v with
          | arr cs => exact absurd rfl (hnotarr cs)
          | null => simp [updateNotebookLinksCore, hcells, hf, specNotebookRewrite]
          | bool b => simp [updateNotebookLinksCore, hcells, hf, specNotebookRewrite]
          | num n => simp [updateNotebookLinksCore, hcells, hf, specNotebookRewrite]
          | str s2 => simp [updateNotebookLinksCore, hcells, hf, specNotebookRewrite]
          | obj cf2 => simp [updateNotebookLinksCore, hcells, hf, specNotebookRewrite]
        · intro h
          simp [notebookUpdatable, hcells, hf] at h
      · have hf2 : jsFalsy v = false := by simpa using hf
        cases v with
        | arr cells =>
          constructor
          · intro h
            have hall : cells.all (cellUpdatable oldDir newDir) = true := by
              simpa [notebookUpdatable, hcells, hf2] using h
            simp [updateNotebookLinksCore, hcells, hf2,
              (updateNotebookCells_spec oldDir newDir cells).1 hall,
              specNotebookRewrite]
          · intro h
            have hall : cells.all (cellUpdatable oldDir newDir) = false := by
              simpa [notebookUpdatable, hcells, hf2] using h
            simp [updateNotebookLinksCore, hcells, hf2,
              (updateNotebookCells_spec oldDir newDir cells).2 hall]
        | str s2 =>
          exact ⟨fun _ => by simp [updateNotebookLinksCore, hcells, hf2,
              specNotebookRewrite],
            fun h => by simp [notebookUpdatable, hcells, hf2] at h⟩
        | null => simp [jsFalsy] at hf2
        | bool b =>
          refine ⟨fun h => ?_, fun _ => by simp [updateNotebookLinksCore, hcells, hf2]⟩
          simp [notebookUpdatable, hcells, hf2] at h
        | num n =>
          refine ⟨fun h => ?_, fun _ => by simp [updateNotebookLinksCore, hcells, hf2]⟩
          simp [notebookUpdatable, hcells, hf2] at h
        | obj cf2 =>
          refine ⟨fun h => ?_, fun _ => by simp [updateNotebookLinksCore, hcells, hf2]⟩
          simp [notebookUpdatable, hcells, hf2] at h

/-- C10 fails as stated: the content written as a compact object whose
`cells` value is the number 5 parses as JSON, yet with distinct
directories the rewrite returns the input unchanged (the `for..of` loop
throws and the `catch` returns `content`), not the indent-width-1
serialization of the parsed document. -/
theorem claim_C10_counterexample :
    updateNotebookLinks (some (.obj [("cells", Json.num 5)])) "\x7b\"cells\":5\x7d"
        "/a" "/b" = "\x7b\"cells\":5\x7d" ∧
    stringify1 0 (.obj [("cells", Json.num 5)]) = "\x7b\n \"cells\": 5\n\x7d" ∧
    ("\x7b\"cells\":5\x7d" : String) ≠ "\x7b\n \"cells\": 5\n\x7d" := by
  refine ⟨rfl, ?_, by decide⟩
  simp only [stringify1, stringifyObjItems, indentStr, quoteJson]
  decide

/-- C10 (amended): with distinct directories, when the parsed document's
cells are processable (markdown cell sources are string arrays whose
line rewrites succeed), the result is the indent-width-1 serialization of
the parsed value with exactly the markdown cells' source lines rewritten
line by line (array length preserved, everything else unchanged as a JSON
value); when some cell is not processable the input content is returned
unchanged; and the returned text can differ from the input even when no
link is rewritten, because the whole file's JSON formatting is
normalized. -/
theorem claim_C10_notebook_serialization (d : Json) (content oldDir newDir : String) :
    (oldDir ≠ newDir → notebookUpdatable oldDir newDir d = true →
      updateNotebookLinks (some d) content oldDir newDir
        = stringify1 0 (specNotebookRewrite oldDir newDir d)) ∧
    (oldDir ≠ newDir → notebookUpdatable oldDir newDir d = false →
      updateNotebookLinks (some d) content oldDir newDir = content) ∧
    (updateNotebookLinks (some (Json.obj [("cells", Json.arr [])]))
        "\x7b\"cells\":[]\x7d" "/a" "/b" = "\x7b\n \"cells\": []\n\x7d" ∧
      ("\x7b\n \"cells\": []\n\x7d" : String) ≠ "\x7b\"cells\":[]\x7d") := by
  refine ⟨?_, ?_, ?_, by decide⟩
  · intro hne hup
    simp [updateNotebookLinks, hne, (updateNotebookLinksCore_spec oldDir newDir d).1 hup]
  · intro hne hup
    simp [updateNotebookLinks, hne, (updateNotebookLinksCore_spec oldDir newDir d).2 hup]
  · have h : updateNotebookLinksCore "/a" "/b" (Json.obj [("cells", Json.arr [])])
        = .ok (Json.obj [("cells", Json.arr [])]) := rfl
    simp only [updateNotebookLinks, h]
    have hne : ("/a" : String) ≠ "/b" := by decide
    simp only [hne, if_false]
    simp only [stringify1, stringifyObjItems, indentStr, quoteJson]
    decide

/-- Witness for C10 (amended) at a one-cell notebook: the rewrite output
is the indent-width-1 serialization of the line-rewritten document. -/
theorem claim_C10_notebook_serialization_witness :
    updateNotebookLinks (some sampleNotebook) "orig" "/old/dir" "/new"
      = stringify1 0 (specNotebookRewrite "/old/dir" "/new" sampleNotebook) :=
  (claim_C10_notebook_serialization sampleNotebook "orig" "/old/dir" "/new").1
    (by decide) rfl

/-! ## Claim C4: candidate tiers are disjoint -/

lemma strData_append (s t : String) : (s ++ t).data = s.data ++ t.data := by
  cases s
  cases t
  rfl

lemma strMk_data (s : String) : String.mk s.data = s := by
  cases s
  rfl

lemma strEq_of_data {s t : String} (h : s.data = t.data) : s = t :=
  congrArg String.mk h

lemma strAppend_left_cancel {s a b : String} (h : s ++ a = s ++ b) : a = b := by
  apply strEq_of_data
  have hd := congrArg String.data h
  rw [strData_append, strData_append] at hd
  exact List.append_cancel_left hd

lemma contains_eq_false_of_not_mem {a : Char} {l : List Char} (h : a ∉ l) :
    l.contains a = false := by
  cases hc : l.contains a
  · rfl
  · exact absurd (List.elem_iff.mp hc) h

lemma not_mem_of_contains_eq_false {a : Char} {l : List Char}
    (h : l.contains a = false) : a ∉ l := by
  intro hm
  have h2 : l.contains a = true := List.elem_iff.mpr hm
  rw [h2] at h
  exact Bool.noConfusion h

lemma splitSlash_ne_nil (l : List Char) : splitSlash l ≠ [] := by
  cases l with
  | nil => simp [splitSlash]
  | cons c cs =>
    by_cases hc : c = '/'
    · simp [splitSlash, hc]
    · cases h : splitSlash cs <;> simp [splitSlash, hc, h]

lemma splitSlash_append (a b : List Char) :
    splitSlash (a ++ '/' :: b) = splitSlash a ++ splitSlash b := by
  induction a with
  | nil => simp [splitSlash]
  | cons c cs ih =>
    by_cases hc : c = '/'
    · subst hc
      simp [splitSlash, ih]
    · cases hcs : splitSlash cs with
      | nil => exact absurd hcs (splitSlash_ne_nil cs)
      | cons ch rest =>
        have key : splitSlash (cs ++ '/' :: b) = ch :: (rest ++ splitSlash b) := by
          rw [ih, hcs]
          rfl
        simp [splitSlash, hc, key, hcs]

lemma splitSlash_noSlash (l : List Char) (h : ∀ c ∈ l, c ≠ '/') :
    splitSlash l = [l] := by
  induction l with
  | nil => rfl
  | cons c cs ih =>
    have hc : c ≠ '/' := h c (by simp)
    have ihs := ih (fun x hx => h x (by simp [hx]))
    simp [splitSlash, hc, ihs]

lemma lastSegOf_pattern (y X : String) (hne : X ≠ "")
    (hns : ('/' : Char) ∉ X.data) : lastSegOf (y ++ "/" ++ X) = X := by
  have hall : ∀ c ∈ X.data, c ≠ '/' := by
    intro c hc he
    subst he
    exact hns hc
  have hd : X.data ≠ [] := by
    intro h0
    exact hne (strEq_of_data (by simp [h0]))
  have hdata : (y ++ "/" ++ X).data = y.data ++ '/' :: X.data := by
    rw [strData_append, strData_append]
    simp
  unfold lastSegOf segsOf
  rw [hdata, splitSlash_append, splitSlash_noSlash X.data hall, List.filter_append]
  simp [hd, strMk_data, List.getLastD_concat]

lemma baseCharsOf_noSlash (s : String) : ('/' : Char) ∉ baseCharsOf s := by
  intro hm
  rw [baseCharsOf, List.mem_reverse] at hm
  have := List.mem_takeWhile_imp hm
  simp at this

lemma parsePosix_base_decomp (s : String) :
    (parsePosix s).base = (parsePosix s).name ++ (parsePosix s).ext ∧
    ('/' : Char) ∉ (parsePosix s).base.data ∧
    ('/' : Char) ∉ (parsePosix s).name.data := by
  by_cases h : trimmedRev s = []
  · simp only [parsePosix, h]
    exact ⟨rfl, by simp, by simp⟩
  · simp only [parsePosix, h]
    refine ⟨?_, ?_, ?_⟩
    · apply strEq_of_data
      rw [strData_append]
      simp
    · simpa using baseCharsOf_noSlash s
    · intro hm
      exact baseCharsOf_noSlash s (List.mem_of_mem_take hm)

lemma parsePosix_base_ne_of_ext (s : String) (h : (parsePosix s).ext ≠ "") :
    (parsePosix s).base ≠ "" := by
  intro hb
  have hdec := (parsePosix_base_decomp s).1
  rw [hb] at hdec
  have hd := congrArg String.data hdec.symm
  rw [strData_append] at hd
  have he : (parsePosix s).ext.data = [] := (List.append_eq_nil.mp (by simpa using hd)).2
  exact h (strEq_of_data (by simp [he]))

/-- The invariant of the cross-format loop: entries in the loose tier
never collide with entries the exact tier may still receive, because
every remaining alternate extension yields a different final segment. -/
lemma crossFold_disjoint (search : String → Nat → Option (List String))
    (pp : PathParts)
    (hsearch : ∀ pat n res, search pat n = some res →
      ∀ r ∈ res, lastSegOf r = lastSegOf pat)
    (hname : ('/' : Char) ∉ pp.name.data) :
    ∀ (exts : List String) (ex lo : List String),
      exts.Nodup →
      (∀ e ∈ exts, e ≠ "" ∧ ('/' : Char) ∉ e.data) →
      (∀ p ∈ lo, p ∉ ex) →
      (∀ p ∈ lo, ∀ e ∈ exts, lastSegOf p ≠ pp.name ++ e) →
      ∀ p ∈ (exts.foldl (crossFormatStep search pp) (ex, lo)).2,
        p ∉ (exts.foldl (crossFormatStep search pp) (ex, lo)).1 := by
  intro exts
  induction exts with
  | nil =>
    intro ex lo _ _ H1 _ p hp
    exact H1 p hp
  | cons e rest ih =>
    intro ex lo hnd hok H1 H2
    have hndr := List.nodup_cons.mp hnd
    have hokr : ∀ e2 ∈ rest, e2 ≠ "" ∧ ('/' : Char) ∉ e2.data :=
      fun e2 he2 => hok e2 (by simp [he2])
    have hplain_ne : pp.name ++ e ≠ "" := by
      intro h0
      have hd := congrArg String.data h0
      rw [strData_append] at hd
      have he : e.data = [] := (List.append_eq_nil.mp (by simpa using hd)).2
      exact (hok e (by simp)).1 (strEq_of_data (by simp [he]))
    have hplain_ns : ('/' : Char) ∉ (pp.name ++ e).data := by
      rw [strData_append]
      intro hm
      rcases List.mem_append.mp hm with hm | hm
      · exact hname hm
      · exact (hok e (by simp)).2 hm
    have hexactPat : lastSegOf ("**/" ++ basenamePosix pp.dir ++ "/" ++ pp.name ++ e)
        = pp.name ++ e := by
      have hEq : ("**/" ++ basenamePosix pp.dir ++ "/" ++ pp.name ++ e)
          = ("**/" ++ basenamePosix pp.dir) ++ "/" ++ (pp.name ++ e) :=
        strEq_of_data (by simp [strData_append])
      rw [hEq]
      exact lastSegOf_pattern _ _ hplain_ne hplain_ns
    have hloosePat : lastSegOf ("**/" ++ pp.name ++ e) = pp.name ++ e := by
      have hEq : ("**/" ++ pp.name ++ e) = "**" ++ "/" ++ (pp.name ++ e) :=
        strEq_of_data (by simp [strData_append])
      rw [hEq]
      exact lastSegOf_pattern _ _ hplain_ne hplain_ns
    rw [List.foldl_cons]
    cases h1 : (if pp.dir ≠ "" then
        search ("**/" ++ basenamePosix pp.dir ++ "/" ++ pp.name ++ e) 10
      else some []) with
    | none =>
      have hstep : crossFormatStep search pp (ex, lo) e = (ex, lo) := by
        unfold crossFormatStep
        rw [h1]
      rw [hstep]
      exact ih ex lo hndr.2 hokr H1
        (fun p hp e2 he2 => H2 p hp e2 (by simp [he2]))
    | some l1 =>
      have hl1 : ∀ r ∈ l1, lastSegOf r = pp.name ++ e := by
        intro r hr
        by_cases hd : pp.dir ≠ ""
        · rw [if_pos hd] at h1
          rw [hsearch _ _ _ h1 r hr, hexactPat]
        · rw [if_neg hd] at h1
          have : ([] : List String) = l1 := Option.some.inj h1
          rw [← this] at hr
          simp at hr
      have H1a : ∀ p ∈ lo, p ∉ ex ++ l1 := by
        intro p hp hmem
        rcases List.mem_append.mp hmem with hm | hm
        · exact H1 p hp hm
        · exact H2 p hp e (by simp) (hl1 p hm)
      cases h2 : search ("**/" ++ pp.name ++ e) 10 with
      | none =>
        have hstep : crossFormatStep search pp (ex, lo) e = (ex ++ l1, lo) := by
          unfold crossFormatStep
          rw [h1, h2]
        rw [hstep]
        exact ih (ex ++ l1) lo hndr.2 hokr H1a
          (fun p hp e2 he2 => H2 p hp e2 (by simp [he2]))
      | some l2 =>
        have hstep : crossFormatStep search pp (ex, lo) e
            = (ex ++ l1, lo ++ l2.filter
                (fun c => ¬ (ex ++ l1).contains c ∧ ¬ lo.contains c)) := by
          unfold crossFormatStep
          rw [h1, h2]
        rw [hstep]
        apply ih (ex ++ l1) _ hndr.2 hokr
        · intro p hp
          rcases List.mem_append.mp hp with hm | hm
          · exact H1a p hm
          · have hcond := of_decide_eq_true (List.mem_filter.mp hm).2
            intro hmem
            exact hcond.1 (List.elem_iff.mpr hmem)
        · intro p hp e2 he2
          rcases List.mem_append.mp hp with hm | hm
          · exact H2 p hm e2 (by simp [he2])
          · have hlast : lastSegOf p = pp.name ++ e := by
              rw [hsearch _ _ _ h2 p (List.mem_filter.mp hm).1, hloosePat]
            rw [hlast]
            intro hEq
            have he12 : e = e2 := strAppend_left_cancel hEq
            subst he12
            exact hndr.1 he2

lemma looseTier1_not_mem_exact (search : String → Nat → Option (List String))
    (pp : PathParts) (exact1 : List String) :
    ∀ p ∈ looseTier1 search pp exact1, p ∉ exact1 := by
  intro p hp
  unfold looseTier1 at hp
  cases hs : search ("**/" ++ pp.base) 20 with
  | none =>
    rw [hs] at hp
    simp at hp
  | some l =>
    rw [hs] at hp
    have hcond := of_decide_eq_true (List.mem_filter.mp hp).2
    intro hmem
    exact hcond (List.elem_iff.mpr hmem)

lemma looseTier1_lastSeg (search : String → Nat → Option (List String))
    (pp : PathParts) (exact1 : List String)
    (hsearch : ∀ pat n res, search pat n = some res →
      ∀ r ∈ res, lastSegOf r = lastSegOf pat) :
    ∀ p ∈ looseTier1 search pp exact1, lastSegOf p = lastSegOf ("**/" ++ pp.base) := by
  intro p hp
  unfold looseTier1 at hp
  cases hs : search ("**/" ++ pp.base) 20 with
  | none =>
    rw [hs] at hp
    simp at hp
  | some l =>
    rw [hs] at hp
    exact hsearch _ _ _ hs p (List.mem_filter.mp hp).1

lemma mergedTiers_disjoint (search : String → Nat → Option (List String)) (s : String)
    (hsearch : ∀ pat n res, search pat n = some res →
      ∀ r ∈ res, lastSegOf r = lastSegOf pat) :
    ∀ p ∈ (mergedTiers search (parsePosix s)).2,
      p ∉ (mergedTiers search (parsePosix s)).1 := by
  have hdecomp := parsePosix_base_decomp s
  by_cases he : (parsePosix s).ext ≠ ""
  · simp only [mergedTiers]
    rw [if_pos he]
    apply crossFold_disjoint search (parsePosix s) hsearch hdecomp.2.2
    · -- the concrete alternate-extension lists have no duplicates
      unfold alternativeExtensions
      by_cases h1 : (parsePosix s).ext = ".md"
      · simp [h1]
      · by_cases h2 : (parsePosix s).ext = ".ipynb" <;> simp [h1, h2]
    · -- each alternate extension is nonempty and slash-free
      intro e heMem
      unfold alternativeExtensions at heMem
      by_cases h1 : (parsePosix s).ext = ".md"
      · simp [h1] at heMem
        subst heMem
        exact ⟨by decide, by decide⟩
      · by_cases h2 : (parsePosix s).ext = ".ipynb"
        · simp [h1, h2] at heMem
          rcases heMem with h | h <;> subst h
          · exact ⟨by decide, by decide⟩
          · exact ⟨by decide, by decide⟩
        · simp [h1, h2] at heMem
    · exact looseTier1_not_mem_exact search (parsePosix s) _
    · -- initial loose entries end in the broken basename, never in a
      -- stem with an alternate extension
      intro p hp e heMem
      have hbase_ne : (parsePosix s).base ≠ "" := parsePosix_base_ne_of_ext s he
      have hlast : lastSegOf p = (parsePosix s).base := by
        have h0 := looseTier1_lastSeg search (parsePosix s) _ hsearch p hp
        have hEq : ("**/" ++ (parsePosix s).base) = "**" ++ "/" ++ (parsePosix s).base :=
          strEq_of_data (by simp [strData_append])
        rw [h0, hEq, lastSegOf_pattern _ _ hbase_ne hdecomp.2.1]
      rw [hlast, hdecomp.1]
      intro hEq
      have hee : (parsePosix s).ext = e := strAppend_left_cancel hEq
      unfold alternativeExtensions at heMem
      by_cases h1 : (parsePosix s).ext = ".md"
      · simp [h1] at heMem
        rw [h1] at hee
        subst heMem
        simp at hee
      · by_cases h2 : (parsePosix s).ext = ".ipynb"
        · simp [h1, h2] at heMem
          rw [h2] at hee
          rcases heMem with h | h <;> subst h <;> simp at hee
        · simp [h1, h2] at heMem
  · simp only [mergedTiers]
    rw [if_neg he]
    exact looseTier1_not_mem_exact search (parsePosix s) _

/-- C4: for every broken path and every search backend obeying the glob
contract (every result's final path segment equals the pattern's final
segment, as `workspace.findFiles` guarantees), the exact-structure tier
and the loose tier of the Candidate Match Set are disjoint, and the
broken path itself belongs to neither tier — across the plain searches
and the merged-in cross-format searches. -/
theorem claim_C4_tiers_disjoint (search : String → Nat → Option (List String))
    (brokenLink : String)
    (hsearch : ∀ pat n res, search pat n = some res →
      ∀ r ∈ res, lastSegOf r = lastSegOf pat) :
    (∀ p, p ∈ (findSmartReplacementCandidates search brokenLink).exactFolderMatches →
      p ∉ (findSmartReplacementCandidates search brokenLink).looseMatches) ∧
    brokenLink ∉ (findSmartReplacementCandidates search brokenLink).exactFolderMatches ∧
    brokenLink ∉ (findSmartReplacementCandidates search brokenLink).looseMatches := by
  refine ⟨?_, ?_, ?_⟩
  · intro p hpe hpl
    unfold findSmartReplacementCandidates at hpe hpl
    have hpe2 := (List.mem_filter.mp hpe).1
    have hpl2 := (List.mem_filter.mp hpl).1
    exact mergedTiers_disjoint search brokenLink hsearch p hpl2 hpe2
  · intro hmem
    unfold findSmartReplacementCandidates at hmem
    have := of_decide_eq_true (List.mem_filter.mp hmem).2
    exact this rfl
  · intro hmem
    unfold findSmartReplacementCandidates at hmem
    have := of_decide_eq_true (List.mem_filter.mp hmem).2
    exact this rfl

/-- Witness for C4 at a concrete backend: one exact-structure result and
a loose search that returns the same file plus another; the tiers stay
disjoint and exclude the broken path. -/
theorem claim_C4_tiers_disjoint_witness :
    ("/w/folder/name.md" : String)
        ∉ (findSmartReplacementCandidates (fun _ _ => some []) "/w/folder/name.md").exactFolderMatches ∧
    ("/w/folder/name.md" : String)
        ∉ (findSmartReplacementCandidates (fun _ _ => some []) "/w/folder/name.md").looseMatches := by
  have h := claim_C4_tiers_disjoint (fun _ _ => some []) "/w/folder/name.md"
    (by
      intro pat n res hres r hr
      have : ([] : List String) = res := Option.some.inj hres
      rw [← this] at hr
      simp at hr)
  exact ⟨h.2.1, h.2.2⟩

/-! ## Claim C6: relative-path round trip -/

lemma plainSeg_spec {seg : String} (h : plainSeg seg = true) :
    seg ≠ "" ∧ seg ≠ "." ∧ seg ≠ ".." ∧ ('/' : Char) ∉ seg.data := by
  have h2 : (((seg != "") && (seg != ".")) && (seg != "..")) = true ∧
      (!(seg.data.contains '/')) = true := by
    simpa [plainSeg, Bool.and_eq_true] using h
  have h3 := Bool.and_eq_true_iff.mp h2.1
  have h4 := Bool.and_eq_true_iff.mp h3.1
  refine ⟨by simpa using h4.1, by simpa using h4.2, by simpa using h3.2, ?_⟩
  exact not_mem_of_contains_eq_false (by simpa using h2.2)

lemma strData_ne_nil {seg : String} (h : seg ≠ "") : seg.data ≠ [] := by
  intro h0
  exact h (strEq_of_data (by simp [h0]))

lemma joinSegsAux_cons_ne_nil {x : String} (rest : List String) (hx : x ≠ "") :
    joinSegsAux (x :: rest) ≠ [] := by
  cases rest with
  | nil => simpa [joinSegsAux] using strData_ne_nil hx
  | cons y t =>
    simp only [joinSegsAux]
    intro h0
    exact strData_ne_nil hx (List.append_eq_nil.mp h0).1

lemma joinSegsAux_append_single (as : List String) (af : String) :
    joinSegsAux (as ++ [af])
      = if as = [] then af.data else joinSegsAux as ++ '/' :: af.data := by
  induction as with
  | nil => simp [joinSegsAux]
  | cons x rest ih =>
    cases rest with
    | nil => simp [joinSegsAux]
    | cons y t =>
      have ih2 : joinSegsAux (y :: t ++ [af]) = joinSegsAux (y :: t) ++ '/' :: af.data := by
        simpa using ih
      simp only [joinSegsAux, List.cons_append, List.append_eq]
      rw [show joinSegsAux (y :: (t ++ [af]))
          = joinSegsAux (y :: t) ++ '/' :: af.data from ih2]
      simp

lemma segsOf_joinSegs (l : List String)
    (h : ∀ seg ∈ l, seg ≠ "" ∧ ('/' : Char) ∉ seg.data) :
    segsOf (joinSegs l) = l := by
  induction l with
  | nil => rfl
  | cons x rest ih =>
    have hx := h x (by simp)
    cases rest with
    | nil =>
      unfold segsOf joinSegs
      rw [show (String.mk (joinSegsAux [x])).data = x.data from rfl]
      rw [splitSlash_noSlash x.data (fun c hc he => hx.2 (he ▸ hc))]
      simp [strData_ne_nil hx.1, strMk_data]
    | cons y t =>
      have ih2 : segsOf (joinSegs (y :: t)) = y :: t :=
        ih (fun seg hs => h seg (by simp [hs]))
      unfold segsOf joinSegs at ih2 ⊢
      rw [show (String.mk (joinSegsAux (x :: y :: t))).data
          = x.data ++ '/' :: joinSegsAux (y :: t) from rfl]
      rw [splitSlash_append, splitSlash_noSlash x.data (fun c hc he => hx.2 (he ▸ hc)),
        List.filter_append, List.map_append]
      rw [show (String.mk (joinSegsAux (y :: t))).data = joinSegsAux (y :: t) from rfl]
        at ih2
      rw [ih2]
      simp [strData_ne_nil hx.1, strMk_data]

lemma segsOf_absOfSegs (l : List String)
    (h : ∀ seg ∈ l, seg ≠ "" ∧ ('/' : Char) ∉ seg.data) :
    segsOf (absOfSegs l) = l := by
  have h2 := segsOf_joinSegs l h
  unfold segsOf joinSegs at h2
  unfold segsOf absOfSegs
  rw [show (String.mk ('/' :: joinSegsAux l)).data = '/' :: joinSegsAux l from rfl]
  rw [show splitSlash ('/' :: joinSegsAux l) = [] :: splitSlash (joinSegsAux l) from by
    simp [splitSlash]]
  rw [show (String.mk (joinSegsAux l)).data = joinSegsAux l from rfl] at h2
  simpa using h2

lemma foldl_normStep_plain :
    ∀ (l : List String) (st : List String),
      (∀ seg ∈ l, plainSeg seg = true) → l.foldl normStep st = st ++ l := by
  intro l
  induction l with
  | nil => intro st _; simp
  | cons x rest ih =>
    intro st h
    have hx := plainSeg_spec (h x (by simp))
    have hstep : normStep st x = st ++ [x] := by
      simp [normStep, hx.1, hx.2.1, hx.2.2.1]
    rw [List.foldl_cons, hstep, ih (st ++ [x]) (fun seg hs => h seg (by simp [hs]))]
    simp

lemma foldl_normStep_dotdot :
    ∀ (k : Nat) (st : List String),
      (List.replicate k "..").foldl normStep st = st.take (st.length - k) := by
  intro k
  induction k with
  | zero => intro st; simp
  | succ k ih =>
    intro st
    rw [List.replicate_succ, List.foldl_cons]
    have hstep : normStep st ".." = st.dropLast := by simp [normStep]
    rw [hstep, ih, List.length_dropLast, List.dropLast_eq_take, List.take_take]
    congr 1
    omega

lemma commonPrefixLen_le_left :
    ∀ (a b : List String), commonPrefixLen a b ≤ a.length := by
  intro a
  induction a with
  | nil => intro b; cases b <;> simp [commonPrefixLen]
  | cons x xs ih =>
    intro b
    cases b with
    | nil => simp [commonPrefixLen]
    | cons y ys =>
      by_cases h : x = y
      · simpa [commonPrefixLen, h] using ih ys
      · simp [commonPrefixLen, h]

lemma commonPrefixLen_take :
    ∀ (a b : List String),
      a.take (commonPrefixLen a b) = b.take (commonPrefixLen a b) := by
  intro a
  induction a with
  | nil => intro b; cases b <;> simp [commonPrefixLen]
  | cons x xs ih =>
    intro b
    cases b with
    | nil => simp [commonPrefixLen]
    | cons y ys =>
      by_cases h : x = y
      · simp [commonPrefixLen, h, ih ys]
      · simp [commonPrefixLen, h]

lemma mem_joinSegsAux {c : Char} :
    ∀ {l : List String}, c ∈ joinSegsAux l → c = '/' ∨ ∃ seg ∈ l, c ∈ seg.data := by
  intro l
  induction l with
  | nil => intro h; simp [joinSegsAux] at h
  | cons x rest ih =>
    intro h
    cases rest with
    | nil =>
      exact Or.inr ⟨x, by simp, by simpa [joinSegsAux] using h⟩
    | cons y t =>
      rw [joinSegsAux] at h
      rcases List.mem_append.mp h with hm | hm
      · exact Or.inr ⟨x, by simp, hm⟩
      · rcases List.mem_cons.mp hm with hm | hm
        · exact Or.inl hm
        · rcases ih hm with hc | ⟨seg, hs, hcs⟩
          · exact Or.inl hc
          · exact Or.inr ⟨seg, List.mem_cons_of_mem x hs, hcs⟩

lemma replaceBackslashes_id {s : String} (h : ('\\' : Char) ∉ s.data) :
    replaceBackslashes s = s := by
  apply strEq_of_data
  rw [show (replaceBackslashes s).data
      = s.data.map (fun c => if c = '\\' then '/' else c) from rfl]
  have h2 : ∀ c ∈ s.data, (if c = '\\' then '/' else c) = c := by
    intro c hc
    refine if_neg (fun he => h ?_)
    rw [← he]
    exact hc
  conv_rhs => rw [← List.map_id s.data]
  exact List.map_congr_left h2

lemma dropWhile_append_of_all {p : Char → Bool} {xs : List Char} (ys : List Char)
    (h : ∀ x ∈ xs, p x = true) : (xs ++ ys).dropWhile p = ys.dropWhile p := by
  induction xs with
  | nil => simp
  | cons x t ih =>
    rw [List.cons_append, List.dropWhile_cons, if_pos (h x (by simp))]
    exact ih (fun z hz => h z (by simp [hz]))

lemma isAbsolutePosix_joinSegs (l : List String)
    (h : ∀ seg ∈ l, seg ≠ "" ∧ ('/' : Char) ∉ seg.data) :
    isAbsolutePosix (joinSegs l) = false := by
  cases l with
  | nil => rfl
  | cons x rest =>
    have hx := h x (by simp)
    obtain ⟨c, cd, hcd⟩ : ∃ c cd, x.data = c :: cd := by
      cases hx2 : x.data with
      | nil => exact absurd hx2 (strData_ne_nil hx.1)
      | cons c cd => exact ⟨c, cd, rfl⟩
    have hcmem : c ∈ x.data := by
      rw [hcd]
      simp
    have hc : c ≠ '/' := fun he => hx.2 (by rw [← he]; exact hcmem)
    have hdata : ∃ t, (joinSegs (x :: rest)).data = c :: t := by
      cases rest with
      | nil => exact ⟨cd, by simp [joinSegs, joinSegsAux, hcd]⟩
      | cons y ys =>
        refine ⟨cd ++ '/' :: joinSegsAux (y :: ys), ?_⟩
        simp [joinSegs, joinSegsAux, hcd]
    obtain ⟨t, ht⟩ := hdata
    unfold isAbsolutePosix
    rw [ht]
    simp [hc]

lemma isAbsolutePosix_absOfSegs (l : List String) :
    isAbsolutePosix (absOfSegs l) = true := rfl

lemma dirname_absOfSegs (as : List String) (af : String)
    (has : ∀ seg ∈ as, plainSeg seg = true) (haf : plainSeg af = true) :
    dirnamePosix (absOfSegs (as ++ [af])) = absOfSegs as := by
  have hafs := plainSeg_spec haf
  obtain ⟨d, ds, hds⟩ : ∃ d ds, af.data.reverse = d :: ds := by
    cases hr : af.data.reverse with
    | nil =>
      exact absurd (by simpa using congrArg List.reverse hr) (strData_ne_nil hafs.1)
    | cons d ds => exact ⟨d, ds, rfl⟩
  have hdmem : d ∈ af.data := by
    rw [← List.mem_reverse, hds]
    simp
  have hdns : d ≠ '/' := fun he => hafs.2.2.2 (by rw [← he]; exact hdmem)
  have hrevall : ∀ x ∈ af.data.reverse, (fun c => decide (c ≠ '/')) x = true := by
    intro x hx
    simp only [decide_eq_true_eq]
    exact fun he => hafs.2.2.2 (by rw [← he]; exact List.mem_reverse.mp hx)
  cases as with
  | nil =>
    have hdata : (absOfSegs ([] ++ [af])).data = '/' :: af.data := by
      simp [absOfSegs, joinSegsAux]
    unfold dirnamePosix
    rw [hdata, if_neg (by simp)]
    have hr : ('/' :: af.data).reverse = d :: (ds ++ ['/']) := by
      rw [show ('/' :: af.data).reverse = af.data.reverse ++ ['/'] from by simp, hds]
      simp
    have h1 : List.dropWhile (fun c => decide (c = '/')) (d :: (ds ++ ['/']))
        = d :: (ds ++ ['/']) := by
      rw [List.dropWhile_cons, if_neg (by simp [hdns])]
    have h2 : List.dropWhile (fun c => decide (c ≠ '/')) (d :: (ds ++ ['/'])) = ['/'] := by
      have h3 := dropWhile_append_of_all ['/'] hrevall
      rw [hds] at h3
      simpa using h3
    simp only [hr, h1, h2]
    simp [isAbsolutePosix_absOfSegs]
    rfl
  | cons a as2 =>
    have ha := plainSeg_spec (has a (by simp))
    have hJne : joinSegsAux (a :: as2) ≠ [] := joinSegsAux_cons_ne_nil as2 ha.1
    have hJ : joinSegsAux (a :: as2 ++ [af])
        = joinSegsAux (a :: as2) ++ '/' :: af.data := by
      rw [joinSegsAux_append_single]
      simp
    have hdata : (absOfSegs (a :: as2 ++ [af])).data
        = '/' :: (joinSegsAux (a :: as2) ++ '/' :: af.data) := by
      simp only [absOfSegs, hJ]
    unfold dirnamePosix
    rw [hdata, if_neg (by simp)]
    have hr : ('/' :: (joinSegsAux (a :: as2) ++ '/' :: af.data)).reverse
        = d :: (ds ++ '/' :: ((joinSegsAux (a :: as2)).reverse ++ ['/'])) := by
      simp [hds]
    have h1 : List.dropWhile (fun c => decide (c = '/'))
          (d :: (ds ++ '/' :: ((joinSegsAux (a :: as2)).reverse ++ ['/'])))
        = d :: (ds ++ '/' :: ((joinSegsAux (a :: as2)).reverse ++ ['/'])) := by
      rw [List.dropWhile_cons, if_neg (by simp [hdns])]
    have h2 : List.dropWhile (fun c => decide (c ≠ '/'))
          (d :: (ds ++ '/' :: ((joinSegsAux (a :: as2)).reverse ++ ['/'])))
        = '/' :: ((joinSegsAux (a :: as2)).reverse ++ ['/']) := by
      have h3 := dropWhile_append_of_all
        ('/' :: ((joinSegsAux (a :: as2)).reverse ++ ['/'])) hrevall
      rw [hds] at h3
      simpa using h3
    simp only [hr, h1, h2]
    have hlen : ('/' :: ((joinSegsAux (a :: as2)).reverse ++ ['/'])).length
        = (joinSegsAux (a :: as2)).length + 2 := by simp
    rw [hlen, if_neg (by omega), if_neg (by
      rintro ⟨_, h2len⟩
      have h0 : (joinSegsAux (a :: as2)).length = 0 := by omega
      exact hJne (List.length_eq_zero.mp h0))]
    have htake : (joinSegsAux (a :: as2)).length + 2 - 1
        = (joinSegsAux (a :: as2)).length + 1 := by omega
    rw [htake, List.take_succ_cons, List.take_left]
    rfl

lemma normAbs_plain (l : List String) (h : ∀ seg ∈ l, plainSeg seg = true) :
    normAbs l = l := by
  unfold normAbs
  rw [foldl_normStep_plain l [] h]
  simp

lemma plainSeg_pair {l : List String} (h : ∀ seg ∈ l, plainSeg seg = true) :
    ∀ seg ∈ l, seg ≠ "" ∧ ('/' : Char) ∉ seg.data := by
  intro seg hs
  exact ⟨(plainSeg_spec (h seg hs)).1, (plainSeg_spec (h seg hs)).2.2.2⟩

lemma relativePosix_absOfSegs (asl bsl : List String)
    (h1 : ∀ seg ∈ asl, plainSeg seg = true) (h2 : ∀ seg ∈ bsl, plainSeg seg = true) :
    relativePosix (absOfSegs asl) (absOfSegs bsl)
      = joinSegs (List.replicate (asl.length - commonPrefixLen asl bsl) ".."
          ++ bsl.drop (commonPrefixLen asl bsl)) := by
  simp only [relativePosix]
  rw [segsOf_absOfSegs asl (plainSeg_pair h1), segsOf_absOfSegs bsl (plainSeg_pair h2),
    normAbs_plain asl h1, normAbs_plain bsl h2]

/-- C6 (counterexample): for the absolute target "/a/we\ird.md", whose last
segment contains a backslash, resolving `calculateRelativePath` back against
the document's directory yields "/a/we/ird.md", not the original path: the
unconditional backslash-to-slash replacement corrupts POSIX names containing
a backslash, so the round trip fails for some pairs of absolute paths. -/
theorem claim_C6_counterexample :
    resolvePosix (dirnamePosix "/a/b/file.md")
        (calculateRelativePath "/a/b/file.md" "/a/we\\ird.md")
      = "/a/we/ird.md" ∧ ("/a/we/ird.md" : String) ≠ "/a/we\\ird.md" := by
  constructor
  · rfl
  · decide

/-- C6 (amended): for a document path A = /as.../af and a target path
B = /bs... built from normalized plain segments, with B's segments free of
backslashes, resolving `calculateRelativePath A B` against A's directory
re-yields exactly B; and Scenario 4 holds:
`calculateRelativePath "/a/b/c/file.md" "/a/d/e/target.md"` is
"../../d/e/target.md". -/
theorem claim_C6_relative_roundtrip (as : List String) (af : String) (bs : List String)
    (hA : ∀ seg ∈ as ++ [af], plainSeg seg = true)
    (hB : ∀ seg ∈ bs, plainSeg seg = true ∧ ('\\' : Char) ∉ seg.data) :
    resolvePosix (dirnamePosix (absOfSegs (as ++ [af])))
        (calculateRelativePath (absOfSegs (as ++ [af])) (absOfSegs bs))
      = absOfSegs bs ∧
    calculateRelativePath "/a/b/c/file.md" "/a/d/e/target.md"
      = "../../d/e/target.md" := by
  refine ⟨?_, by rfl⟩
  have hAs : ∀ seg ∈ as, plainSeg seg = true := fun seg hs => hA seg (by simp [hs])
  have hAf : plainSeg af = true := hA af (by simp)
  have hBp : ∀ seg ∈ bs, plainSeg seg = true := fun seg hs => (hB seg hs).1
  have hrelPair : ∀ seg ∈ List.replicate (as.length - commonPrefixLen as bs) ".."
        ++ bs.drop (commonPrefixLen as bs), seg ≠ "" ∧ ('/' : Char) ∉ seg.data := by
    intro seg hs
    rcases List.mem_append.mp hs with hm | hm
    · rw [List.eq_of_mem_replicate hm]
      exact ⟨by decide, by decide⟩
    · exact plainSeg_pair hBp seg (List.mem_of_mem_drop hm)
  have hcalc : calculateRelativePath (absOfSegs (as ++ [af])) (absOfSegs bs)
      = joinSegs (List.replicate (as.length - commonPrefixLen as bs) ".."
          ++ bs.drop (commonPrefixLen as bs)) := by
    unfold calculateRelativePath
    rw [dirname_absOfSegs as af hAs hAf, relativePosix_absOfSegs as bs hAs hBp]
    apply replaceBackslashes_id
    intro hmem
    have h2 : ('\\' : Char) ∈ joinSegsAux
        (List.replicate (as.length - commonPrefixLen as bs) ".."
          ++ bs.drop (commonPrefixLen as bs)) := by
      simpa [joinSegs] using hmem
    rcases mem_joinSegsAux h2 with hc2 | ⟨seg, hsm, hcs⟩
    · exact absurd hc2 (by decide)
    · rcases List.mem_append.mp hsm with hm | hm
      · rw [List.eq_of_mem_replicate hm] at hcs
        simp at hcs
      · exact (hB seg (List.mem_of_mem_drop hm)).2 hcs
  rw [hcalc, dirname_absOfSegs as af hAs hAf]
  have habs := isAbsolutePosix_joinSegs _ hrelPair
  simp only [resolvePosix]
  rw [if_neg (by simp [habs])]
  rw [segsOf_absOfSegs as (plainSeg_pair hAs), segsOf_joinSegs _ hrelPair]
  have hnorm : normAbs (as ++ (List.replicate (as.length - commonPrefixLen as bs) ".."
      ++ bs.drop (commonPrefixLen as bs))) = bs := by
    unfold normAbs
    rw [List.foldl_append, List.foldl_append]
    rw [foldl_normStep_plain as [] hAs]
    simp only [List.nil_append]
    rw [foldl_normStep_dotdot]
    have hc : commonPrefixLen as bs ≤ as.length := commonPrefixLen_le_left as bs
    have hlen : as.length - (as.length - commonPrefixLen as bs)
        = commonPrefixLen as bs := by omega
    rw [hlen, commonPrefixLen_take as bs]
    rw [foldl_normStep_plain (bs.drop (commonPrefixLen as bs)) _
      (fun seg hs => hBp seg (List.mem_of_mem_drop hs))]
    exact List.take_append_drop _ bs
  rw [hnorm]
  rfl

/-- Witness for C6: the round trip at the Scenario 4 paths
/a/b/c/file.md and /a/d/e/target.md. -/
theorem claim_C6_relative_roundtrip_witness :
    resolvePosix (dirnamePosix (absOfSegs (["a", "b", "c"] ++ ["file.md"])))
        (calculateRelativePath (absOfSegs (["a", "b", "c"] ++ ["file.md"]))
          (absOfSegs ["a", "d", "e", "target.md"]))
      = absOfSegs ["a", "d", "e", "target.md"] ∧
    calculateRelativePath "/a/b/c/file.md" "/a/d/e/target.md"
      = "../../d/e/target.md" :=
  claim_C6_relative_roundtrip ["a", "b", "c"] "file.md" ["a", "d", "e", "target.md"]
    (by decide) (by decide)

end MdLinkIndexer
